import Mathlib

/-!
Verification development for the OCR synthetic-data line composer
(`src/core/line_composer.py`).  Images are shallowly embedded as grids of
natural-number pixel values (row-major: a grid is a list of rows, a row a
list of 8-bit pixel values); the Python dictionaries are embedded as
association lists where insertion conses to the front and lookup takes the
first hit (so the latest insertion wins, matching `dict` semantics);
filesystem contents are embedded as association lists from path-component
lists to already-decoded grids.  Library calls whose pixel output is
floating-point (PIL LANCZOS resize, brightness scaling, Gaussian noise,
cv2 Gaussian blur) are abstracted as function parameters gathered in
`FloatOps`; every random draw made by the Python code is an explicit
parameter gathered in `RandDraws`.
-/

/-- A grayscale image buffer: list of rows, each row a list of pixel values. -/
abbrev Grid := List (List Nat)

/-- Image height: `array.shape[0]`. -/
def gridH (g : Grid) : Nat := g.length

/-- Image width: `array.shape[1]` (length of the first row). -/
def gridW (g : Grid) : Nat := (g.headD []).length

/-- Well-formedness: the grid is rectangular (every row has the width). -/
def Rect (g : Grid) : Prop := ∀ r ∈ g, r.length = gridW g

instance (g : Grid) : Decidable (Rect g) := by
  unfold Rect; infer_instance

/-- Pixel access `g[y][x]` with a default of 0 for out-of-range indices. -/
def px (g : Grid) (y x : Nat) : Nat := (g.getD y []).getD x 0

/-- Every pixel of the grid is white (255). -/
def AllWhite (g : Grid) : Prop := ∀ r ∈ g, ∀ v ∈ r, v = 255

instance (g : Grid) : Decidable (AllWhite g) := by
  unfold AllWhite; infer_instance

/-- Association-list lookup: first match wins (Python `dict` access, given
that our insertions cons the newest binding to the front). -/
def alookup {α β : Type} [DecidableEq α] (l : List (α × β)) (k : α) : Option β :=
  match l with
  | [] => none
  | (a, b) :: t => if a = k then some b else alookup t k

/-! ## Python string primitives -/

/-- Strings are modelled as explicit character lists so that every string
operation reduces inside the kernel. -/
abbrev Str := List Char

/-- `s.startswith(t)` on character lists. -/
def strStartsWith : Str → Str → Bool
  | _, [] => true
  | [], _ :: _ => false
  | c :: s, d :: t => c = d && strStartsWith s t

/-- `s.endswith(t)`. -/
def strEndsWith (s t : Str) : Bool := strStartsWith s.reverse t.reverse

/-- Fuel-driven worker for `str.split(sep)` (the fuel is an upper bound on
the number of characters still to scan, so it never runs out when called
with `s.length + 1`). -/
def splitOnGo (sep : Str) : Nat → Str → Str → List Str
  | 0, acc, s => [acc.reverse ++ s]
  | _ + 1, acc, [] => [acc.reverse]
  | fuel + 1, acc, c :: rest =>
    if strStartsWith (c :: rest) sep then
      acc.reverse :: splitOnGo sep fuel [] (rest.drop (sep.length - 1))
    else splitOnGo sep fuel (c :: acc) rest

/-- Python `str.split(sep)` for a nonempty separator: left-to-right,
non-overlapping occurrences. -/
def strSplitOn (sep s : Str) : List Str := splitOnGo sep (s.length + 1) [] s

/-- Python `str.strip()`: remove leading and trailing whitespace. -/
def strTrim (s : Str) : Str :=
  ((s.dropWhile Char.isWhitespace).reverse.dropWhile Char.isWhitespace).reverse

/-- Numeric value of a digit run. -/
def digitsVal (s : Str) : Nat := s.foldl (fun a c => a * 10 + (c.toNat - 48)) 0

/-- `s.isdigit()` followed by `int(s)`: a nonempty run of decimal digits. -/
def strToNat? (s : Str) : Option Nat :=
  if s ≠ [] ∧ s.all Char.isDigit then some (digitsVal s) else none

/-! ## Character dictionary loading (`CharacterImageLoader._load_char_dict`) -/

/-- The `" : "` separator. -/
def sepColon : Str := [' ', ':', ' ']

/-- `' : ' in line` — the Python substring test, expressed through the
split (the separator occurs iff splitting on it yields at least two
pieces). -/
def hasSep (l : Str) : Bool := 2 ≤ (strSplitOn sepColon l).length

/-- Model of Python `int(s)` on a string: optional surrounding whitespace,
optional sign, then a nonempty digit run (underscore grouping is not
modelled; none of the inputs we reason about use it). -/
def pyInt? (s : Str) : Option Int :=
  match strTrim s with
  | '-' :: rest => (strToNat? rest).map (fun n => -(Int.ofNat n))
  | '+' :: rest => (strToNat? rest).map Int.ofNat
  | t => (strToNat? t).map Int.ofNat

/-- `CharacterImageLoader._load_char_dict`: processes the lines of the
dictionary file in order (each line given without its trailing newline).
A line without the `" : "` separator is skipped.  A line with the
separator is stripped, split on it and unpacked into exactly two parts
(`char, code = line.strip().split(' : ')`); a different number of parts,
or a code `int(...)` cannot parse, raises — modelled by returning `none`
(the load aborts).  Both directions of the mapping are recorded
(`char_dict` and `char_dict_reverse`), latest entry first. -/
def loadCharDict : List Str → List (Str × Int) → List (Int × Str) →
    Option (List (Str × Int) × List (Int × Str))
  | [], d, r => some (d, r)
  | l :: ls, d, r =>
    if hasSep l then
      match strSplitOn sepColon (strTrim l) with
      | [c, code] =>
        match pyInt? code with
        | some n => loadCharDict ls ((c, n) :: d) ((n, c) :: r)
        | none => none
      | _ => none
    else loadCharDict ls d r

/-- A dictionary line is conforming: splitting its stripped form on
`" : "` yields exactly two parts and the second parses as an integer. -/
def conformLine (l : Str) : Bool :=
  match strSplitOn sepColon (strTrim l) with
  | [_, code] => (pyInt? code).isSome
  | _ => false

/-- The (char, code) entry a conforming line contributes. -/
def parseEntry? (l : Str) : Option (Str × Int) :=
  if hasSep l then
    match strSplitOn sepColon (strTrim l) with
    | [c, code] => (pyInt? code).map (fun n => (c, n))
    | _ => none
  else none

/-- The entries contributed by the conforming lines of a dictionary. -/
def entriesOf (lines : List Str) : List (Str × Int) := lines.filterMap parseEntry?

/-! ## Glyph image loading (`CharacterImageLoader._load_character_images`) -/

/-- A filesystem subtree: association list from relative paths (lists of
path components) to the decoded single-channel image at that path. -/
abbrev FileSys := List (List Str × Grid)

/-- `os.listdir(image_directory)`: the distinct top-level entry names
(files and directories alike). -/
def listdirNames (fs : FileSys) : List Str :=
  (fs.map (fun e => e.1.headD [])).dedup

/-- `filename.endswith(('.jpg', '.png'))`. -/
def isImageName (s : Str) : Bool :=
  strEndsWith s ('.' :: 'j' :: 'p' :: 'g' :: []) || strEndsWith s ('.' :: 'p' :: 'n' :: 'g' :: [])

/-- Opening and decoding `image_directory/<name>`: succeeds only when a
plain top-level file of that name exists (a directory or missing entry
makes `Image.open` raise, which the per-file `except` swallows). -/
def openTopLevel (fs : FileSys) (name : Str) : Option Grid :=
  alookup fs [name]

/-- Filename parsing: `parts = filename.split('_')`; requires
`len(parts) >= 2`; style is `parts[0]` and the code text is
`parts[1].split('.')[0]` — the text between the first underscore and the
following underscore or first period, whichever comes first. -/
def parseStyleCode (name : Str) : Option (Str × Str) :=
  let parts := strSplitOn ['_'] name
  if 2 ≤ parts.length then
    some (parts.headD [], (strSplitOn ['.'] (parts.getD 1 [])).headD [])
  else none

/-- The glyph index: character ↦ (style ↦ glyph buffer). -/
abbrev GlyphIndex := List (Str × List (Str × Grid))

/-- `self.char_images[char][font_style] = np.array(image)` — creating the
inner dict on first use; newest bindings shadow older ones. -/
def storeGlyph (ci : GlyphIndex) (ch style : Str) (g : Grid) : GlyphIndex :=
  match alookup ci ch with
  | none => (ch, [(style, g)]) :: ci
  | some fonts => (ch, (style, g) :: fonts) :: ci

/-- Processing of one listed filename: parse `<style>_<code>...`, require
the code text to be all digits (`char_code.isdigit()` plus `int`), resolve
it through `char_dict_reverse`, open the file, and store the glyph.  Every
failure silently leaves the index unchanged (the surrounding
`try/except` plus the `if` guards). -/
def processName (rev : List (Int × Str)) (fs : FileSys) (ci : GlyphIndex)
    (name : Str) : GlyphIndex :=
  match parseStyleCode name with
  | none => ci
  | some (style, codeStr) =>
    match strToNat? codeStr with
    | none => ci
    | some n =>
      match alookup rev (Int.ofNat n) with
      | none => ci
      | some ch =>
        match openTopLevel fs name with
        | none => ci
        | some g => storeGlyph ci ch style g

/-- `CharacterImageLoader._load_character_images`: list the directory
(top level only), keep names with a recognized image extension, and fold
the per-file processing over them. -/
def loadCharacterImages (rev : List (Int × Str)) (fs : FileSys) : GlyphIndex :=
  ((listdirNames fs).filter isImageName).foldl (processName rev fs) []

/-! ## Glyph lookup (`CharacterImageLoader.get_character_image`) -/

/-- The loader state after construction: both dictionary directions and
the glyph index. -/
structure CharLoader where
  charDict : List (Str × Int)
  charDictReverse : List (Int × Str)
  charImages : GlyphIndex
deriving DecidableEq

/-- `list(self.char_images[char].keys())`: distinct style keys. -/
def styleKeys (fonts : List (Str × Grid)) : List Str :=
  (fonts.map (fun p => p.1)).dedup

/-- `CharacterImageLoader.get_character_image(char, font_style)`:
returns `none` when the character has no entry (or an empty style dict);
otherwise keeps the requested style when it is available and picks among
the available styles otherwise (`random.choice`, whose draw is the
explicit `pick` argument, reduced modulo the number of styles). -/
def get_character_image (L : CharLoader) (c : Char) (style? : Option Str)
    (pick : Nat) : Option Grid :=
  match alookup L.charImages [c] with
  | none => none
  | some fonts =>
    let keys := styleKeys fonts
    if keys.isEmpty then none
    else
      let chosen :=
        match style? with
        | some s => if s ∈ keys then s else keys.getD (pick % keys.length) []
        | none => keys.getD (pick % keys.length) []
      alookup fonts chosen

/-- The character has at least one loaded glyph. -/
def hasGlyph (L : CharLoader) (c : Char) : Bool :=
  match alookup L.charImages [c] with
  | none => false
  | some fonts => !fonts.isEmpty

/-! ## Line assembly (`LineImageComposer._concatenate_character_images`) -/

/-- `max(img.shape[0] for img in char_images)` (the caller guarantees a
nonempty list, so the 0 seed is inert). -/
def maxHeight (gs : List Grid) : Nat := gs.foldl (fun m g => max m (gridH g)) 0

/-- `total_width` accumulated over the (padded) buffers. -/
def sumWidths (gs : List Grid) : Nat := gs.foldl (fun a g => a + gridW g) 0

/-- Vertical centering pad of one buffer
(`np.pad(img, ((pad_top, pad_bottom), (0, 0)), constant_values=255)`),
applied only when the buffer is shorter than the target height. -/
def padCenter (maxH : Nat) (g : Grid) : Grid :=
  if g.length < maxH then
    let padTop := (maxH - g.length) / 2
    let padBottom := maxH - g.length - padTop
    List.replicate padTop (List.replicate (gridW g) 255) ++ g ++
      List.replicate padBottom (List.replicate (gridW g) 255)
  else g

/-- One row of the slice assignment
`line_array[:, current_x : current_x + w] = img`. -/
def pasteRow (acc : List Nat) (x : Nat) (r : List Nat) : List Nat :=
  acc.take x ++ r ++ acc.drop (x + r.length)

/-- The whole slice assignment, row by row. -/
def pasteGrid (acc : Grid) (x : Nat) (img : Grid) : Grid :=
  List.zipWith (fun a i => pasteRow a x i) acc img

/-- The paste loop over all buffers, threading `current_x`. -/
def pasteLoop : Grid → Nat → List Grid → Grid
  | acc, _, [] => acc
  | acc, x, g :: gs => pasteLoop (pasteGrid acc x g) (x + gridW g) gs

/-- `LineImageComposer._concatenate_character_images`: `none` on an empty
list; otherwise pad every buffer to the maximum height, allocate an
all-white `(max_height, total_width)` buffer, and paste the padded
buffers left to right. -/
def concatenateCharacterImages (imgs : List Grid) : Option Grid :=
  if imgs.isEmpty then none
  else
    let maxH := maxHeight imgs
    let padded := imgs.map (padCenter maxH)
    let totalW := sumWidths padded
    some (pasteLoop (List.replicate maxH (List.replicate totalW 255)) 0 padded)

/-! ## Whitespace crop (`LineImageComposer._crop_whitespace`) -/

/-- `np.argmax` of a boolean vector: index of the first `true`, 0 when
there is none. -/
def firstTrue (l : List Bool) : Nat := (l.findIdx? (fun b => b)).getD 0

/-- The random draws a single `compose_line_image` call can make, plus the
float-level external transforms, passed explicitly. -/
structure RandDraws where
  /-- draw backing `random.choice(available_fonts)` for the character at a
  given position of the text (used modulo the number of styles). -/
  stylePick : Nat → Nat
  /-- the four `random.randint(0, 3)` crop margins (used modulo 4,
  indices 0 = top, 1 = bottom, 2 = left, 3 = right). -/
  margin : Nat → Nat
  /-- draw backing `random.choice(self.background_images)`. -/
  bgPick : Nat
  /-- `random.random() < 0.3` (brightness gate). -/
  gate1 : Bool
  /-- `random.random() < 0.2` (noise gate). -/
  gate2 : Bool
  /-- `random.random() < 0.1` (blur gate). -/
  gate3 : Bool

/-- The floating-point library calls, abstracted: LANCZOS resize (called
with the target width and height), brightness scaling with its sampled
factor, additive Gaussian noise with its sampled field, and the 3×3
Gaussian blur. -/
structure FloatOps where
  resizeBg : Grid → Nat → Nat → Grid
  brightnessT : Grid → Grid
  noiseT : Grid → Grid
  blurT : Grid → Grid

/-- `LineImageComposer._crop_whitespace`: count sub-230 pixels per row and
per column, find the tight ink bounding box (`argmax` conventions as in
numpy), expand each side by an independent `randint(0, 3)` clamped to the
buffer bounds, and crop to `[left, right) × [top, bottom)`. -/
def crop_whitespace (rnd : RandDraws) (g : Grid) : Grid :=
  let threshold := 230
  let H := gridH g
  let W := gridW g
  let hsum := g.map (fun row => (row.filter (fun v => v < threshold)).length)
  let vsum := (List.range W).map
    (fun x => ((g.map (fun row => row.getD x 255)).filter (fun v => v < threshold)).length)
  let top := firstTrue (hsum.map (fun v => decide (0 < v)))
  let bottom := H - firstTrue (hsum.reverse.map (fun v => decide (0 < v)))
  let left := firstTrue (vsum.map (fun v => decide (0 < v)))
  let right := W - firstTrue (vsum.reverse.map (fun v => decide (0 < v)))
  let top := top - rnd.margin 0 % 4
  let bottom := min H (bottom + rnd.margin 1 % 4)
  let left := left - rnd.margin 2 % 4
  let right := min W (right + rnd.margin 3 % 4)
  ((g.drop top).take (bottom - top)).map (fun row => (row.drop left).take (right - left))

/-! ## Background blending (`LineImageComposer._blend_with_background`) -/

/-- `LineImageComposer._blend_with_background`: upscale the background to
the foreground size when it is smaller in either dimension
(`background.size[0] < fg_width or background.size[1] < fg_height`),
take the top-left foreground-sized region of it as the base, and
overwrite every pixel where the foreground is below the threshold with
the foreground value. -/
def blend_with_background (ops : FloatOps) (foreground background : Grid)
    (threshold : Nat) : Grid :=
  let fh := gridH foreground
  let fw := gridW foreground
  let bg := if gridW background < fw ∨ gridH background < fh then
      ops.resizeBg background fw fh
    else background
  let base := (bg.take fh).map (fun row => row.take fw)
  List.zipWith (fun brow frow =>
    List.zipWith (fun b f => if f < threshold then f else b) brow frow)
    base foreground

/-! ## Compose (`LineImageComposer.compose_line_image`) -/

/-- The compositor state: its loader reference and loaded backgrounds. -/
structure ComposerState where
  loader : CharLoader
  backgrounds : List Grid
deriving DecidableEq

/-- `LineImageComposer._add_background`: identity when no backgrounds are
loaded, otherwise blend with a randomly chosen background (threshold
default 180). -/
def add_background (ops : FloatOps) (rnd : RandDraws) (st : ComposerState)
    (img : Grid) : Grid :=
  if st.backgrounds.isEmpty then img
  else blend_with_background ops img
    (st.backgrounds.getD (rnd.bgPick % st.backgrounds.length) []) 180

/-- `LineImageComposer._apply_augmentation`: three independently gated
transforms applied in order (brightness, noise, blur). -/
def apply_augmentation (ops : FloatOps) (rnd : RandDraws) (g : Grid) : Grid :=
  let g1 := if rnd.gate1 then ops.brightnessT g else g
  let g2 := if rnd.gate2 then ops.noiseT g1 else g1
  if rnd.gate3 then ops.blurT g2 else g2

/-- The synthesized whitespace buffer
`Image.new('L', (20, 32), 255)` — width 20, height 32, all white. -/
def space_image : Grid := List.replicate 32 (List.replicate 20 255)

/-- The per-character loop of `compose_line_image`: whitespace appends the
blank buffer and the character; other characters append their glyph and
the character when a glyph resolves, and are dropped entirely otherwise.
The `Nat` argument is the position in the text (indexing the style
draws). -/
def composeChars (L : CharLoader) (style? : Option Str) (rnd : RandDraws) :
    List Char → Nat → List Grid × List Char
  | [], _ => ([], [])
  | c :: cs, i =>
    let rest := composeChars L style? rnd cs (i + 1)
    if c.isWhitespace then (space_image :: rest.1, c :: rest.2)
    else
      match get_character_image L c style? (rnd.stylePick i) with
      | some g => (g :: rest.1, c :: rest.2)
      | none => rest

/-- `LineImageComposer.compose_line_image`: early `(None, "")` returns for
all-whitespace text and for an empty buffer sequence, then assembly,
whitespace crop, optional background blend (only when requested and
backgrounds are loaded), optional augmentation.  The state is threaded
through and returned so that its preservation can be stated. -/
def compose_line_image (ops : FloatOps) (rnd : RandDraws) (st : ComposerState)
    (text : List Char) (style? : Option Str)
    (addBg applyAug : Bool) : Option Grid × List Char × ComposerState :=
  if text.all (fun c => c.isWhitespace) then (none, [], st)
  else
    let built := composeChars st.loader style? rnd text 0
    if built.1.isEmpty then (none, [], st)
    else
      match concatenateCharacterImages built.1 with
      | none => (none, [], st)
      | some line0 =>
        let line1 := crop_whitespace rnd line0
        let line2 := if addBg ∧ ¬st.backgrounds.isEmpty then
            add_background ops rnd st line1
          else line1
        let line3 := if applyAug then apply_augmentation ops rnd line2 else line2
        (some line3, built.2, st)

/-! ## Shared concrete instances for witnesses and counterexamples -/

/-- Identity-shaped float externals for concrete evaluations. -/
def trivialOps : FloatOps := ⟨fun g _ _ => g, id, id, id⟩

/-- All-zero random draws for concrete evaluations. -/
def zeroRnd : RandDraws := ⟨fun _ => 0, fun _ => 0, 0, false, false, false⟩

/-- A loader with no dictionary and no glyphs. -/
def emptyLoader : CharLoader := ⟨[], [], []⟩

/-- A compositor over the empty loader with no backgrounds. -/
def emptyState : ComposerState := ⟨emptyLoader, []⟩

/-- A small loader carrying a single 1×2 glyph for the character `a`. -/
def loaderA : CharLoader :=
  ⟨[(['a'], 1)], [((1 : Int), ['a'])], [(['a'], [(['s'], [[0, 0]])])]⟩

/-- The buffer list matches the label: same length, whitespace positions
carry the synthesized blank buffer, and every other position carries one
of the store's glyphs for its character. -/
def BuffersMatch (L : CharLoader) (bufs : List Grid) (lbl : List Char) : Prop :=
  bufs.length = lbl.length ∧
  ∀ i, i < lbl.length →
    ((lbl.getD i ' ').isWhitespace = true → bufs.getD i [] = space_image) ∧
    ((lbl.getD i ' ').isWhitespace = false →
      ∃ fonts s g, alookup L.charImages [lbl.getD i ' '] = some fonts ∧
        alookup fonts s = some g ∧ bufs.getD i [] = g)

/-- Pairwise horizontal concatenation of two grids (row by row). -/
def hcat2 (a b : Grid) : Grid := List.zipWith (fun r s => r ++ s) a b

/-! ## Theorems -/

theorem loadCharDict_cons (l : Str) (ls : List Str) (d : List (Str × Int))
    (r : List (Int × Str)) :
    loadCharDict (l :: ls) d r =
      if hasSep l then
        match strSplitOn sepColon (strTrim l) with
        | [c, code] =>
          match pyInt? code with
          | some n => loadCharDict ls ((c, n) :: d) ((n, c) :: r)
          | none => none
        | _ => none
      else loadCharDict ls d r := rfl

theorem loadCharDict_filterSep (lines : List Str) : ∀ d r,
    loadCharDict lines d r = loadCharDict (lines.filter hasSep) d r := by
  induction lines with
  | nil => intro d r; rfl
  | cons l ls ih =>
    intro d r
    by_cases h : hasSep l
    · rw [List.filter_cons_of_pos h, loadCharDict_cons, loadCharDict_cons,
        if_pos h, if_pos h]
      cases hs : strSplitOn sepColon (strTrim l) with
      | nil => rfl
      | cons c t =>
        cases t with
        | nil => rfl
        | cons code t2 =>
          cases t2 with
          | nil => cases hp : pyInt? code <;> simp [ih]
          | cons u t3 => rfl
    · rw [List.filter_cons_of_neg h, loadCharDict_cons, if_neg h]
      exact ih d r

theorem loadCharDict_isSome_iff (lines : List Str) : ∀ d r,
    (loadCharDict lines d r).isSome = true ↔
      ∀ l ∈ lines, hasSep l = true → conformLine l = true := by
  induction lines with
  | nil => intro d r; simp [loadCharDict]
  | cons l ls ih =>
    intro d r
    rw [loadCharDict_cons]
    by_cases h : hasSep l
    · rw [if_pos h]
      cases hs : strSplitOn sepColon (strTrim l) with
      | nil =>
        simp only [Option.isSome_none, Bool.false_eq_true, false_iff]
        intro hall
        have := hall l (List.mem_cons_self l ls) h
        rw [conformLine, hs] at this
        cases this
      | cons c t =>
        cases t with
        | nil =>
          simp only [Option.isSome_none, Bool.false_eq_true, false_iff]
          intro hall
          have := hall l (List.mem_cons_self l ls) h
          rw [conformLine, hs] at this
          cases this
        | cons code t2 =>
          cases t2 with
          | nil =>
            cases hp : pyInt? code with
            | none =>
              simp only [hp, Option.isSome_none, Bool.false_eq_true, false_iff]
              intro hall
              have := hall l (List.mem_cons_self l ls) h
              rw [conformLine, hs] at this
              simp [hp] at this
            | some n =>
              have hcf : conformLine l = true := by rw [conformLine, hs]; simp [hp]
              simp only [hp]
              rw [ih]
              constructor
              · intro hall l' hl'
                rcases List.mem_cons.mp hl' with rfl | hl''
                · intro _; exact hcf
                · exact hall l' hl''
              · intro hall l' hl'
                exact hall l' (List.mem_cons_of_mem _ hl')
          | cons u t3 =>
            simp only [Option.isSome_none, Bool.false_eq_true, false_iff]
            intro hall
            have := hall l (List.mem_cons_self l ls) h
            rw [conformLine, hs] at this
            cases this
    · rw [if_neg h, ih]
      constructor
      · intro hall l' hl'
        rcases List.mem_cons.mp hl' with rfl | hl''
        · intro hsep'; exact absurd hsep' h
        · exact hall l' hl''
      · intro hall l' hl'
        exact hall l' (List.mem_cons_of_mem _ hl')

/-- Claim C5 (amended): `_load_char_dict` silently skips exactly the lines
that do not contain the `" : "` separator, and succeeds iff every line
containing the separator is of the exact conforming form (two parts, an
integer code); a separator-containing line that is malformed — two
separators, or a non-integer code — aborts the load instead of being
skipped. -/
theorem loadCharDict_skip_and_conform :
    (∀ lines d r, loadCharDict lines d r = loadCharDict (lines.filter hasSep) d r)
    ∧ (∀ lines d r, (loadCharDict lines d r).isSome = true ↔
        ∀ l ∈ lines, hasSep l = true → conformLine l = true) :=
  ⟨loadCharDict_filterSep, loadCharDict_isSome_iff⟩

/-- Claim C5 counterexample: a line whose code part is not an integer
(`"a : b"`) and a line containing the separator twice (`"x : 1 : 2"`)
each abort the whole load (result `none`), contradicting the claim that
no non-conforming line aborts it. -/
theorem loadCharDict_abort_cex :
    loadCharDict ["a : b".toList] [] [] = none
    ∧ loadCharDict ["x : 1 : 2".toList] [] [] = none := by
  exact ⟨by decide, by decide⟩

theorem alookup_cons {α β : Type} [DecidableEq α] (a : α) (b : β)
    (t : List (α × β)) (k : α) :
    alookup ((a, b) :: t) k = if a = k then some b else alookup t k := rfl

theorem loadCharDict_inv : ∀ (lines : List Str) (d : List (Str × Int))
    (r : List (Int × Str)) (d' : List (Str × Int)) (r' : List (Int × Str))
    (E : List (Str × Int)),
    loadCharDict lines d r = some (d', r') →
    (∀ ch v, alookup d ch = some v → (ch, v) ∈ E) →
    (∀ code ch, alookup r code = some ch → (ch, code) ∈ E) →
    (∀ ch v, (ch, v) ∈ E → (alookup d ch).isSome = true) →
    ((∀ ch v, alookup d' ch = some v → (ch, v) ∈ E ++ entriesOf lines)
      ∧ (∀ code ch, alookup r' code = some ch → (ch, code) ∈ E ++ entriesOf lines)
      ∧ (∀ ch v, (ch, v) ∈ E ++ entriesOf lines → (alookup d' ch).isSome = true)) := by
  intro lines
  induction lines with
  | nil =>
    intro d r d' r' E hload i1 i2 i3
    obtain ⟨rfl, rfl⟩ : d = d' ∧ r = r' := by
      simpa [loadCharDict] using hload
    simpa [entriesOf] using ⟨i1, i2, i3⟩
  | cons l ls ih =>
    intro d r d' r' E hload i1 i2 i3
    rw [loadCharDict_cons] at hload
    by_cases h : hasSep l
    · rw [if_pos h] at hload
      split at hload
      case _ c code hs =>
        split at hload
        case _ n hp =>
          have hentry : entriesOf (l :: ls) = (c, n) :: entriesOf ls := by
            simp [entriesOf, List.filterMap_cons, parseEntry?, h, hs, hp]
          have i1' : ∀ ch v, alookup ((c, n) :: d) ch = some v →
              (ch, v) ∈ E ++ [(c, n)] := by
            intro ch v hv
            rw [alookup_cons] at hv
            by_cases hc : c = ch
            · rw [if_pos hc] at hv
              obtain rfl := Option.some_injective _ hv
              subst hc
              simp
            · rw [if_neg hc] at hv
              exact List.mem_append_left _ (i1 ch v hv)
          have i2' : ∀ cd ch, alookup ((n, c) :: r) cd = some ch →
              (ch, cd) ∈ E ++ [(c, n)] := by
            intro cd ch hv
            rw [alookup_cons] at hv
            by_cases hc : n = cd
            · rw [if_pos hc] at hv
              obtain rfl := Option.some_injective _ hv
              subst hc
              simp
            · rw [if_neg hc] at hv
              exact List.mem_append_left _ (i2 cd ch hv)
          have i3' : ∀ ch v, (ch, v) ∈ E ++ [(c, n)] →
              (alookup ((c, n) :: d) ch).isSome = true := by
            intro ch v hm
            rcases List.mem_append.mp hm with hm | hm
            · have := i3 ch v hm
              rw [alookup_cons]
              by_cases hc : c = ch
              · simp [hc]
              · simpa [hc] using this
            · simp only [List.mem_singleton, Prod.mk.injEq] at hm
              obtain ⟨rfl, rfl⟩ := hm
              simp [alookup_cons]
          have := ih ((c, n) :: d) ((n, c) :: r) d' r' (E ++ [(c, n)])
            hload i1' i2' i3'
          rw [hentry]
          simpa [List.append_assoc] using this
        case _ hp => cases hload
      case _ hother => cases hload
    · rw [if_neg h] at hload
      have hentry : entriesOf (l :: ls) = entriesOf ls := by
        simp [entriesOf, List.filterMap_cons, parseEntry?, h]
      rw [hentry]
      exact ih d r d' r' E hload i1 i2 i3

/-- Claim C6 (amended): for a successfully loaded dictionary in which every
character occurs with a single code among its conforming lines (duplicate
codes across distinct characters, and repeated identical lines, are
allowed), code→char→code is the identity on every code present in the
code-to-character map.  Without that restriction the claim fails: when the
same character occurs with two codes, the stale code's reverse entry
round-trips to the newer code. -/
theorem loadCharDict_roundTrip (lines : List Str) (d : List (Str × Int))
    (r : List (Int × Str))
    (hload : loadCharDict lines [] [] = some (d, r))
    (hfun : ∀ p ∈ entriesOf lines, ∀ q ∈ entriesOf lines, p.1 = q.1 → p.2 = q.2)
    (code : Int) (ch : Str) (hc : alookup r code = some ch) :
    alookup d ch = some code := by
  obtain ⟨h1, h2, h3⟩ := loadCharDict_inv lines [] [] d r [] hload
    (by intro ch v hv; simp [alookup] at hv)
    (by intro cd ch hv; simp [alookup] at hv)
    (by intro ch v hm; simp at hm)
  have hmem : (ch, code) ∈ entriesOf lines := by simpa using h2 code ch hc
  have hsome := h3 ch code (by simpa using hmem)
  rw [Option.isSome_iff_exists] at hsome
  obtain ⟨v, hv⟩ := hsome
  have hvm : (ch, v) ∈ entriesOf lines := by simpa using h1 ch v hv
  have hveq : v = code := hfun (ch, v) hvm (ch, code) hmem rfl
  rw [hv, hveq]

theorem loadCharDict_roundTrip_witness :
    alookup [("b".toList, (2 : Int)), ("a".toList, 1)] "a".toList = some 1 :=
  loadCharDict_roundTrip ["a : 1".toList, "b : 2".toList]
    [("b".toList, (2 : Int)), ("a".toList, 1)]
    [((2 : Int), "b".toList), ((1 : Int), "a".toList)]
    (by decide) (by decide) 1 "a".toList (by decide)

/-- Claim C6 counterexample: with the dictionary lines `"a : 1"` and
`"a : 2"` (same character, two codes, both valid, last entry winning),
code 1 is present in the code-to-character map and maps to `a`, but `a`
maps back to 2, not 1 — so code→char→code is not the identity on loaded
codes. -/
theorem loadCharDict_roundTrip_cex :
    ¬ (∀ dr : List (Str × Int) × List (Int × Str),
        loadCharDict ["a : 1".toList, "a : 2".toList] [] [] = some dr →
        ∀ code ch, alookup dr.2 code = some ch → alookup dr.1 ch = some code) := by
  intro hclaim
  have := hclaim ([("a".toList, 2), ("a".toList, 1)],
      [((2 : Int), "a".toList), ((1 : Int), "a".toList)])
    (by decide) 1 "a".toList (by decide)
  exact absurd this (by decide)

theorem processName_src (rev : List (Int × Str)) (fs : FileSys) (ci : GlyphIndex)
    (name : Str)
    (h : ∀ ch fonts, alookup ci ch = some fonts →
      ∀ style g, alookup fonts style = some g → ∃ nm, openTopLevel fs nm = some g) :
    ∀ ch fonts, alookup (processName rev fs ci name) ch = some fonts →
      ∀ style g, alookup fonts style = some g → ∃ nm, openTopLevel fs nm = some g := by
  rcases hp : parseStyleCode name with _ | ⟨style0, codeStr⟩
  · simpa [processName, hp] using h
  · rcases hn : strToNat? codeStr with _ | n
    · simpa [processName, hp, hn] using h
    · rcases hr : alookup rev ((n : Int)) with _ | ch0
      · simpa [processName, hp, hn, Int.ofNat_eq_natCast, hr] using h
      · rcases ho : openTopLevel fs name with _ | g0
        · simpa [processName, hp, hn, Int.ofNat_eq_natCast, hr, ho] using h
        · rcases hc : alookup ci ch0 with _ | fonts0
          · intro ch fonts hf style g hg
            rw [show processName rev fs ci name = (ch0, [(style0, g0)]) :: ci by
              simp [processName, hp, hn, Int.ofNat_eq_natCast, hr, ho, storeGlyph, hc]] at hf
            rw [alookup_cons] at hf
            by_cases hcc : ch0 = ch
            · rw [if_pos hcc] at hf
              obtain rfl := Option.some_injective _ hf
              rw [alookup_cons] at hg
              by_cases hss : style0 = style
              · rw [if_pos hss] at hg
                obtain rfl := Option.some_injective _ hg
                exact ⟨name, ho⟩
              · rw [if_neg hss] at hg
                simp [alookup] at hg
            · rw [if_neg hcc] at hf
              exact h ch fonts hf style g hg
          · intro ch fonts hf style g hg
            rw [show processName rev fs ci name = (ch0, (style0, g0) :: fonts0) :: ci by
              simp [processName, hp, hn, Int.ofNat_eq_natCast, hr, ho, storeGlyph, hc]] at hf
            rw [alookup_cons] at hf
            by_cases hcc : ch0 = ch
            · rw [if_pos hcc] at hf
              obtain rfl := Option.some_injective _ hf
              rw [alookup_cons] at hg
              by_cases hss : style0 = style
              · rw [if_pos hss] at hg
                obtain rfl := Option.some_injective _ hg
                exact ⟨name, ho⟩
              · rw [if_neg hss] at hg
                exact h ch0 fonts0 hc style g hg
            · rw [if_neg hcc] at hf
              exact h ch fonts hf style g hg

theorem foldl_processName_src (rev : List (Int × Str)) (fs : FileSys) :
    ∀ (names : List Str) (ci : GlyphIndex),
    (∀ ch fonts, alookup ci ch = some fonts →
      ∀ style g, alookup fonts style = some g → ∃ nm, openTopLevel fs nm = some g) →
    ∀ ch fonts, alookup (names.foldl (processName rev fs) ci) ch = some fonts →
      ∀ style g, alookup fonts style = some g → ∃ nm, openTopLevel fs nm = some g := by
  intro names
  induction names with
  | nil => intro ci h; simpa using h
  | cons nm names ih => intro ci h; exact ih _ (processName_src rev fs ci nm h)

/-- Claim C7 (amended): `_load_character_images` lists only the top level
of the image directory (`os.listdir`), so every glyph stored in the index
comes from a top-level file; a glyph file in a nested subdirectory is
never loaded. -/
theorem loadCharacterImages_top_only (rev : List (Int × Str)) (fs : FileSys)
    (ch : Str) (fonts : List (Str × Grid)) (style : Str) (g : Grid)
    (h1 : alookup (loadCharacterImages rev fs) ch = some fonts)
    (h2 : alookup fonts style = some g) :
    ∃ name, openTopLevel fs name = some g :=
  foldl_processName_src rev fs _ []
    (by intro ch fonts hf; simp [alookup] at hf) ch fonts h1 style g h2

theorem loadCharacterImages_top_only_witness :
    ∃ name, openTopLevel [(["s_1.jpg".toList], [[7]])] name = some [[7]] :=
  loadCharacterImages_top_only [((1 : Int), "a".toList)] [(["s_1.jpg".toList], [[7]])]
    "a".toList [("s".toList, [[7]])] "s".toList [[7]] (by decide) (by decide)

/-- Claim C7 counterexample: with the dictionary resolving code 1 to `a`
and the glyph file `s_1.jpg` located inside the subdirectory `sub` of the
image directory, the load stores nothing at all — the scan is not
recursive, so the nested glyph file is not loaded. -/
theorem loadCharacterImages_nested_cex :
    loadCharacterImages [((1 : Int), "a".toList)]
      [(["sub".toList, "s_1.jpg".toList], [[0]])] = []
    ∧ alookup (loadCharacterImages [((1 : Int), "a".toList)]
        [(["sub".toList, "s_1.jpg".toList], [[0]])]) "a".toList = none :=
  ⟨by decide, by decide⟩

/-- Claim C8 (amended): for a considered image filename, the glyph is
stored under (character, style) if and only if the code text — the text
between the first underscore and the following underscore or first
period, whichever comes first (`filename.split('_')[1].split('.')[0]`), not
the whole text up to the extension — is a decimal integer resolvable to a
character via the dictionary; style is the text before the first
underscore, and files whose code text is non-numeric or unresolvable are
skipped without aborting the load. -/
theorem loadCharacterImages_single_iff (rev : List (Int × Str)) (name : Str)
    (g : Grid) (himg : isImageName name = true) :
    (∀ style codeStr n ch, parseStyleCode name = some (style, codeStr) →
        strToNat? codeStr = some n → alookup rev ((n : Int)) = some ch →
        loadCharacterImages rev [([name], g)] = [(ch, [(style, g)])])
    ∧ (loadCharacterImages rev [([name], g)] ≠ [] ↔
        ∃ style codeStr n ch, parseStyleCode name = some (style, codeStr) ∧
          strToNat? codeStr = some n ∧ alookup rev ((n : Int)) = some ch) := by
  have hload : loadCharacterImages rev [([name], g)] =
      processName rev [([name], g)] [] name := by
    simp [loadCharacterImages, listdirNames, List.dedup_cons_of_not_mem, himg]
  constructor
  · intro style codeStr n ch hp hn hr
    rw [hload]
    simp [processName, hp, hn, Int.ofNat_eq_natCast, hr, openTopLevel, alookup,
      storeGlyph]
  · rw [hload]
    constructor
    · intro hne
      rcases hp : parseStyleCode name with _ | ⟨style, codeStr⟩
      · rw [show processName rev [([name], g)] [] name = [] by
          simp [processName, hp]] at hne
        exact absurd rfl hne
      · rcases hn : strToNat? codeStr with _ | n
        · rw [show processName rev [([name], g)] [] name = [] by
            simp [processName, hp, hn]] at hne
          exact absurd rfl hne
        · rcases hr : alookup rev ((n : Int)) with _ | ch
          · rw [show processName rev [([name], g)] [] name = [] by
              simp [processName, hp, hn, Int.ofNat_eq_natCast, hr]] at hne
            exact absurd rfl hne
          · exact ⟨style, codeStr, n, ch, rfl, hn, hr⟩
    · rintro ⟨style, codeStr, n, ch, hp, hn, hr⟩
      rw [show processName rev [([name], g)] [] name = [(ch, [(style, g)])] by
        simp [processName, hp, hn, Int.ofNat_eq_natCast, hr, openTopLevel, alookup,
          storeGlyph]]
      simp

theorem loadCharacterImages_single_iff_witness :
    loadCharacterImages [((12 : Int), "x".toList)] [(["s_12_34.jpg".toList], [[5]])]
      = [("x".toList, [("s".toList, [[5]])])] :=
  (loadCharacterImages_single_iff [((12 : Int), "x".toList)] "s_12_34.jpg".toList
    [[5]] (by decide)).1 "s".toList "12".toList 12 "x".toList
    (by decide) (by decide) (by decide)

/-- Claim C8 counterexample: for the file `s_12_34.jpg` the text between
the first underscore and the extension is `12_34`, which is not a decimal
integer, so by the claim the file should be skipped; but the load parses
the code as `12` (text up to the second underscore) and stores the glyph
under (`x`, `s`). -/
theorem loadCharacterImages_codepart_cex :
    loadCharacterImages [((12 : Int), "x".toList)] [(["s_12_34.jpg".toList], [[5]])]
      = [("x".toList, [("s".toList, [[5]])])]
    ∧ strToNat? "12_34".toList = none :=
  ⟨by decide, by decide⟩

theorem alookup_isSome_iff {α β : Type} [DecidableEq α] (l : List (α × β)) (k : α) :
    (alookup l k).isSome = true ↔ k ∈ l.map Prod.fst := by
  induction l with
  | nil => simp [alookup]
  | cons p t ih =>
    obtain ⟨a, b⟩ := p
    by_cases h : a = k
    · simp [alookup, h]
    · simp [alookup, h, ih, Ne.symm h]

theorem getD_mem {α : Type} (l : List α) (n : Nat) (d : α) (h : n < l.length) :
    l.getD n d ∈ l := by
  rw [List.getD_eq_getElem l d h]
  exact List.getElem_mem h

theorem styleKeys_sub {fonts : List (Str × Grid)} {k : Str}
    (h : k ∈ styleKeys fonts) : k ∈ fonts.map Prod.fst := by
  simpa [styleKeys, List.mem_dedup] using h

theorem styleKeys_ne_nil {fonts : List (Str × Grid)} (h : fonts ≠ []) :
    styleKeys fonts ≠ [] := by
  simp only [styleKeys, ne_eq, List.dedup_eq_nil, List.map_eq_nil_iff]
  exact h

theorem get_character_image_none_iff (L : CharLoader) (c : Char)
    (style? : Option Str) (pick : Nat) :
    get_character_image L c style? pick = none ↔ hasGlyph L c = false := by
  rcases ha : alookup L.charImages [c] with _ | fonts
  · simp [get_character_image, hasGlyph, ha]
  · cases fonts with
    | nil => simp [get_character_image, hasGlyph, ha, styleKeys]
    | cons f ft =>
      have hne : styleKeys (f :: ft) ≠ [] := styleKeys_ne_nil (by simp)
      have hlen : 0 < (styleKeys (f :: ft)).length := by
        cases hk : styleKeys (f :: ft) with
        | nil => exact absurd hk hne
        | cons a t => simp
      have hempty : (styleKeys (f :: ft)).isEmpty = false := by
        cases hk : styleKeys (f :: ft) with
        | nil => exact absurd hk hne
        | cons a t => simp
      have key : ∀ k, k ∈ styleKeys (f :: ft) →
          ¬ alookup (f :: ft) k = none := by
        intro k hk hnone
        have := (alookup_isSome_iff (f :: ft) k).mpr (styleKeys_sub hk)
        rw [hnone] at this
        cases this
      have hgd : (styleKeys (f :: ft)).getD (pick % (styleKeys (f :: ft)).length) []
          ∈ styleKeys (f :: ft) := getD_mem _ _ _ (Nat.mod_lt _ hlen)
      cases style? with
      | none =>
        simp only [get_character_image, hasGlyph, ha, hempty, Bool.false_eq_true,
          if_false, List.isEmpty_cons, Bool.not_false]
        simp only [Bool.true_eq_false, iff_false]
        exact fun hno => key _ hgd hno
      | some st =>
        by_cases hs : st ∈ styleKeys (f :: ft)
        · simp only [get_character_image, hasGlyph, ha, hempty, Bool.false_eq_true,
            if_false, List.isEmpty_cons, Bool.not_false, hs, if_true]
          simp only [Bool.true_eq_false, iff_false]
          exact fun hno => key _ hs hno
        · simp only [get_character_image, hasGlyph, ha, hempty, Bool.false_eq_true,
            if_false, List.isEmpty_cons, Bool.not_false, hs]
          simp only [Bool.true_eq_false, iff_false]
          exact fun hno => key _ hgd hno

theorem get_character_image_glyphOf (L : CharLoader) (c : Char)
    (style? : Option Str) (pick : Nat) (g : Grid)
    (h : get_character_image L c style? pick = some g) :
    ∃ fonts st, alookup L.charImages [c] = some fonts ∧ alookup fonts st = some g := by
  rcases ha : alookup L.charImages [c] with _ | fonts
  · rw [get_character_image, ha] at h
    cases h
  · simp only [get_character_image, ha] at h
    by_cases he : (styleKeys fonts).isEmpty
    · rw [if_pos he] at h
      cases h
    · rw [if_neg he] at h
      exact ⟨fonts, _, rfl, h⟩

theorem get_character_image_some_hasGlyph {L : CharLoader} {c : Char}
    {style? : Option Str} {pick : Nat} {g : Grid}
    (h : get_character_image L c style? pick = some g) : hasGlyph L c = true := by
  cases hh : hasGlyph L c with
  | false =>
    have := (get_character_image_none_iff L c style? pick).mpr hh
    rw [this] at h
    cases h
  | true => rfl

theorem composeChars_label (L : CharLoader) (style? : Option Str) (rnd : RandDraws) :
    ∀ (text : List Char) (i : Nat),
    (composeChars L style? rnd text i).2 =
      text.filter (fun c => c.isWhitespace || hasGlyph L c) := by
  intro text
  induction text with
  | nil => intro i; rfl
  | cons c cs ih =>
    intro i
    by_cases hw : c.isWhitespace
    · simp [composeChars, hw, ih]
    · rcases hg : get_character_image L c style? (rnd.stylePick i) with _ | g
      · have hngl : hasGlyph L c = false :=
          (get_character_image_none_iff L c style? (rnd.stylePick i)).mp hg
        simp [composeChars, hw, hg, ih, hngl]
      · have hgl : hasGlyph L c = true := get_character_image_some_hasGlyph hg
        simp [composeChars, hw, hg, ih, hgl]

theorem composeChars_length (L : CharLoader) (style? : Option Str) (rnd : RandDraws) :
    ∀ (text : List Char) (i : Nat),
    (composeChars L style? rnd text i).1.length =
      (composeChars L style? rnd text i).2.length := by
  intro text
  induction text with
  | nil => intro i; rfl
  | cons c cs ih =>
    intro i
    by_cases hw : c.isWhitespace
    · simp [composeChars, hw, ih]
    · rcases hg : get_character_image L c style? (rnd.stylePick i) with _ | g
      · simp [composeChars, hw, hg, ih]
      · simp [composeChars, hw, hg, ih]

theorem composeChars_buffers (L : CharLoader) (style? : Option Str)
    (rnd : RandDraws) : ∀ (text : List Char) (i : Nat),
    BuffersMatch L (composeChars L style? rnd text i).1
      (composeChars L style? rnd text i).2 := by
  intro text
  induction text with
  | nil =>
    intro i
    exact ⟨rfl, fun j hj => absurd hj (by simp [composeChars])⟩
  | cons c cs ih =>
    intro i
    obtain ⟨ihlen, ihmatch⟩ := ih (i + 1)
    by_cases hw : c.isWhitespace
    · refine ⟨by simp [composeChars, hw, ihlen], ?_⟩
      intro j hj
      cases j with
      | zero =>
        constructor
        · intro _
          simp [composeChars, hw]
        · intro hcw
          rw [show (composeChars L style? rnd (c :: cs) i).2 =
              c :: (composeChars L style? rnd cs (i + 1)).2 by
            simp [composeChars, hw]] at hcw
          simp only [List.getD_cons_zero] at hcw
          rw [hcw] at hw
          cases hw
      | succ j =>
        rw [show (composeChars L style? rnd (c :: cs) i).2 =
            c :: (composeChars L style? rnd cs (i + 1)).2 by
          simp [composeChars, hw]] at hj ⊢
        rw [show (composeChars L style? rnd (c :: cs) i).1 =
            space_image :: (composeChars L style? rnd cs (i + 1)).1 by
          simp [composeChars, hw]]
        simp only [List.getD_cons_succ, List.length_cons] at hj ⊢
        exact ihmatch j (by omega)
    · rcases hg : get_character_image L c style? (rnd.stylePick i) with _ | g
      · have hred : composeChars L style? rnd (c :: cs) i =
            composeChars L style? rnd cs (i + 1) := by
          simp [composeChars, hw, hg]
        rw [hred]
        exact ⟨ihlen, ihmatch⟩
      · have hred1 : (composeChars L style? rnd (c :: cs) i).1 =
            g :: (composeChars L style? rnd cs (i + 1)).1 := by
          simp [composeChars, hw, hg]
        have hred2 : (composeChars L style? rnd (c :: cs) i).2 =
            c :: (composeChars L style? rnd cs (i + 1)).2 := by
          simp [composeChars, hw, hg]
        refine ⟨by simp [hred1, hred2, ihlen], ?_⟩
        intro j hj
        cases j with
        | zero =>
          rw [hred1, hred2]
          simp only [List.getD_cons_zero]
          constructor
          · intro hcw
            exact absurd hcw hw
          · intro _
            obtain ⟨fonts, st, ha, hf⟩ :=
              get_character_image_glyphOf L c style? (rnd.stylePick i) g hg
            exact ⟨fonts, st, g, ha, hf, rfl⟩
        | succ j =>
          rw [hred1, hred2]
          rw [hred2] at hj
          simp only [List.getD_cons_succ, List.length_cons] at hj ⊢
          exact ihmatch j (by omega)

theorem composeChars_allspace (L : CharLoader) (style? : Option Str)
    (rnd : RandDraws) : ∀ (text : List Char) (i : Nat),
    (∀ c ∈ text, c.isWhitespace = false → hasGlyph L c = false) →
    (composeChars L style? rnd text i).1 =
      (text.filter (fun c => c.isWhitespace)).map (fun _ => space_image) := by
  intro text
  induction text with
  | nil => intro i _; rfl
  | cons c cs ih =>
    intro i h3
    have h3' : ∀ c ∈ cs, c.isWhitespace = false → hasGlyph L c = false :=
      fun c hc => h3 c (List.mem_cons_of_mem _ hc)
    by_cases hw : c.isWhitespace
    · simp [composeChars, hw, ih (i + 1) h3']
    · have hng : hasGlyph L c = false :=
        h3 c (List.mem_cons_self c cs) (by simpa using hw)
      have hg : get_character_image L c style? (rnd.stylePick i) = none :=
        (get_character_image_none_iff L c style? (rnd.stylePick i)).mpr hng
      simp [composeChars, hw, hg, ih (i + 1) h3']

theorem compose_allws (ops : FloatOps) (rnd : RandDraws) (st : ComposerState)
    (text : List Char) (style? : Option Str) (ab aa : Bool)
    (hws : text.all (fun c => c.isWhitespace) = true) :
    compose_line_image ops rnd st text style? ab aa = (none, [], st) := by
  simp [compose_line_image, hws]

theorem compose_emptybuf (ops : FloatOps) (rnd : RandDraws) (st : ComposerState)
    (text : List Char) (style? : Option Str) (ab aa : Bool)
    (hws : text.all (fun c => c.isWhitespace) = false)
    (hb : (composeChars st.loader style? rnd text 0).1 = []) :
    compose_line_image ops rnd st text style? ab aa = (none, [], st) := by
  simp [compose_line_image, hws, hb]

theorem concat_isSome (imgs : List Grid) (h : imgs ≠ []) :
    (concatenateCharacterImages imgs).isSome = true := by
  rw [concatenateCharacterImages]
  rw [if_neg (by simpa using h)]
  rfl

theorem compose_main (ops : FloatOps) (rnd : RandDraws) (st : ComposerState)
    (text : List Char) (style? : Option Str) (ab aa : Bool)
    (hws : text.all (fun c => c.isWhitespace) = false)
    (line0 : Grid)
    (hline : concatenateCharacterImages (composeChars st.loader style? rnd text 0).1
      = some line0) :
    compose_line_image ops rnd st text style? ab aa =
      (some (if aa then apply_augmentation ops rnd
          (if ab ∧ ¬st.backgrounds.isEmpty then
            add_background ops rnd st (crop_whitespace rnd line0)
          else crop_whitespace rnd line0)
        else (if ab ∧ ¬st.backgrounds.isEmpty then
            add_background ops rnd st (crop_whitespace rnd line0)
          else crop_whitespace rnd line0)),
       (composeChars st.loader style? rnd text 0).2, st) := by
  have hne : (composeChars st.loader style? rnd text 0).1.isEmpty = false := by
    cases hb : (composeChars st.loader style? rnd text 0).1 with
    | nil =>
      rw [hb] at hline
      rw [concatenateCharacterImages] at hline
      simp at hline
    | cons b bs => simp
  simp [compose_line_image, hws, hne, hline]

/-- Claim C3: `compose_line_image` returns `(none, "")` exactly when the
input text is empty or all-whitespace, or when the glyph-buffer sequence
built from the text is empty; in particular both `compose_line_image("")`
and `compose_line_image("   ")` return `(none, "")`. -/
theorem compose_none_iff :
    (∀ ops rnd st text style? ab aa,
      ((compose_line_image ops rnd st text style? ab aa).1 = none ↔
        (List.all text (fun c => c.isWhitespace) = true ∨
          (composeChars st.loader style? rnd text 0).1 = []))
      ∧ ((compose_line_image ops rnd st text style? ab aa).1 = none →
          (compose_line_image ops rnd st text style? ab aa).2.1 = []))
    ∧ (∀ ops rnd st style? ab aa,
        compose_line_image ops rnd st [] style? ab aa = (none, [], st)
        ∧ compose_line_image ops rnd st [' ', ' ', ' '] style? ab aa
          = (none, [], st)) := by
  constructor
  · intro ops rnd st text style? ab aa
    cases hws : text.all (fun c => c.isWhitespace) with
    | true =>
      rw [compose_allws ops rnd st text style? ab aa hws]
      simp
    | false =>
      cases hb : (composeChars st.loader style? rnd text 0).1 with
      | nil =>
        rw [compose_emptybuf ops rnd st text style? ab aa hws hb]
        simp
      | cons b bs =>
        have hsome := concat_isSome (b :: bs) (by simp)
        rw [Option.isSome_iff_exists] at hsome
        obtain ⟨line0, hline⟩ := hsome
        rw [compose_main ops rnd st text style? ab aa hws line0 (by rw [hb]; exact hline)]
        simp [hb]
  · intro ops rnd st style? ab aa
    exact ⟨compose_allws ops rnd st [] style? ab aa (by decide),
      compose_allws ops rnd st [' ', ' ', ' '] style? ab aa (by decide)⟩

/-- Claim C10: a `compose_line_image` call leaves the compositor state —
the loader with its character-to-glyph index and stored glyph buffers,
and the loaded background list — unchanged: every pipeline stage
(padding, concatenation, cropping, background blending, augmentation)
only produces fresh buffers, so the returned state equals the input
state. -/
theorem compose_state_unchanged (ops : FloatOps) (rnd : RandDraws)
    (st : ComposerState) (text : List Char) (style? : Option Str)
    (ab aa : Bool) :
    (compose_line_image ops rnd st text style? ab aa).2.2 = st := by
  cases hws : text.all (fun c => c.isWhitespace) with
  | true => rw [compose_allws ops rnd st text style? ab aa hws]
  | false =>
    cases hb : (composeChars st.loader style? rnd text 0).1 with
    | nil => rw [compose_emptybuf ops rnd st text style? ab aa hws hb]
    | cons b bs =>
      have hsome := concat_isSome (b :: bs) (by simp)
      rw [Option.isSome_iff_exists] at hsome
      obtain ⟨line0, hline⟩ := hsome
      rw [compose_main ops rnd st text style? ab aa hws line0 (by rw [hb]; exact hline)]

/-- Claim C2 (amended): for every input text that is not (non-empty)
all-whitespace, the returned Label is exactly the subsequence of the text
consisting of the characters that are whitespace or have at least one
loaded glyph, in original order with original multiplicities; moreover
the built buffer sequence matches the Label position by position — each
whitespace character contributes the synthesized 20×32 all-white buffer
and every other kept character contributes one of its stored glyphs,
while characters with no glyph are dropped from both.  (For a non-empty
all-whitespace text the claim fails: the call returns `(none, "")`
instead of the whitespace subsequence.) -/
theorem compose_label_spec (ops : FloatOps) (rnd : RandDraws) (st : ComposerState)
    (text : List Char) (style? : Option Str) (ab aa : Bool)
    (h : text.all (fun c => c.isWhitespace) = false) :
    (compose_line_image ops rnd st text style? ab aa).2.1 =
      text.filter (fun c => c.isWhitespace || hasGlyph st.loader c)
    ∧ BuffersMatch st.loader (composeChars st.loader style? rnd text 0).1
        (composeChars st.loader style? rnd text 0).2 := by
  refine ⟨?_, composeChars_buffers st.loader style? rnd text 0⟩
  have hlab := composeChars_label st.loader style? rnd text 0
  cases hb : (composeChars st.loader style? rnd text 0).1 with
  | nil =>
    rw [compose_emptybuf ops rnd st text style? ab aa h hb]
    have hlen := composeChars_length st.loader style? rnd text 0
    rw [hb] at hlen
    simp only [List.length_nil] at hlen
    rw [← hlab]
    exact (List.length_eq_zero.mp hlen.symm).symm
  | cons b bs =>
    have hsome := concat_isSome (b :: bs) (by simp)
    rw [Option.isSome_iff_exists] at hsome
    obtain ⟨line0, hline⟩ := hsome
    rw [compose_main ops rnd st text style? ab aa h line0 (by rw [hb]; exact hline)]
    exact hlab

theorem compose_label_spec_witness :
    (compose_line_image trivialOps zeroRnd ⟨loaderA, []⟩ ['a', 'x', ' ']
        none false false).2.1 =
      List.filter (fun c => c.isWhitespace || hasGlyph loaderA c) ['a', 'x', ' ']
    ∧ BuffersMatch loaderA (composeChars loaderA none zeroRnd ['a', 'x', ' '] 0).1
        (composeChars loaderA none zeroRnd ['a', 'x', ' '] 0).2 :=
  compose_label_spec trivialOps zeroRnd ⟨loaderA, []⟩ ['a', 'x', ' ']
    none false false (by decide)

/-- Claim C2 counterexample: for the non-empty all-whitespace text `" "`
the call returns Label `""`, while the subsequence of whitespace-or-glyph
characters is `" "` — so the claim, quantified over every input text,
fails. -/
theorem compose_label_cex :
    (compose_line_image trivialOps zeroRnd emptyState [' '] none true true).2.1 ≠
      List.filter (fun c => c.isWhitespace || hasGlyph emptyState.loader c) [' '] := by
  decide

theorem mem_zipWith_decomp {α β γ : Type} {f : α → β → γ} :
    ∀ {l : List α} {l' : List β} {c : γ}, c ∈ List.zipWith f l l' →
      ∃ a ∈ l, ∃ b ∈ l', c = f a b := by
  intro l
  induction l with
  | nil => intro l' c h; simp at h
  | cons a t ih =>
    intro l' c h
    cases l' with
    | nil => simp at h
    | cons b t' =>
      rw [List.zipWith_cons_cons] at h
      rcases List.mem_cons.mp h with rfl | h
      · exact ⟨a, List.mem_cons_self a t, b, List.mem_cons_self b t', rfl⟩
      · obtain ⟨x, hx, y, hy, rfl⟩ := ih h
        exact ⟨x, List.mem_cons_of_mem _ hx, y, List.mem_cons_of_mem _ hy, rfl⟩

theorem allWhite_space_image : AllWhite space_image := by
  intro r hr v hv
  rw [List.eq_of_mem_replicate hr] at hv
  exact List.eq_of_mem_replicate hv

theorem allWhite_pasteRow {acc r : List Nat} {x : Nat}
    (h1 : ∀ v ∈ acc, v = 255) (h2 : ∀ v ∈ r, v = 255) :
    ∀ v ∈ pasteRow acc x r, v = 255 := by
  intro v hv
  rw [pasteRow] at hv
  rcases List.mem_append.mp hv with hv | hv
  · rcases List.mem_append.mp hv with hv | hv
    · exact h1 v (List.mem_of_mem_take hv)
    · exact h2 v hv
  · exact h1 v (List.mem_of_mem_drop hv)

theorem allWhite_pasteGrid {acc img : Grid} {x : Nat}
    (ha : AllWhite acc) (hi : AllWhite img) : AllWhite (pasteGrid acc x img) := by
  intro r hr
  obtain ⟨p, hp, q, hq, rfl⟩ := mem_zipWith_decomp hr
  exact allWhite_pasteRow (ha p hp) (hi q hq)

theorem allWhite_pasteLoop : ∀ (gs : List Grid) (acc : Grid) (x : Nat),
    AllWhite acc → (∀ g ∈ gs, AllWhite g) → AllWhite (pasteLoop acc x gs) := by
  intro gs
  induction gs with
  | nil => intro acc x ha _; exact ha
  | cons g gs ih =>
    intro acc x ha hg
    exact ih _ _ (allWhite_pasteGrid ha (hg g (List.mem_cons_self g gs)))
      (fun g' hg' => hg g' (List.mem_cons_of_mem _ hg'))

theorem allWhite_replicate (h w : Nat) :
    AllWhite (List.replicate h (List.replicate w 255)) := by
  intro r hr v hv
  rw [List.eq_of_mem_replicate hr] at hv
  exact List.eq_of_mem_replicate hv

theorem allWhite_padCenter {g : Grid} (m : Nat) (h : AllWhite g) :
    AllWhite (padCenter m g) := by
  rw [padCenter]
  by_cases hlt : g.length < m
  · rw [if_pos hlt]
    intro r hr
    rcases List.mem_append.mp hr with hr | hr
    · rcases List.mem_append.mp hr with hr | hr
      · intro v hv
        rw [List.eq_of_mem_replicate hr] at hv
        exact List.eq_of_mem_replicate hv
      · exact h r hr
    · intro v hv
      rw [List.eq_of_mem_replicate hr] at hv
      exact List.eq_of_mem_replicate hv
  · rw [if_neg hlt]
    exact h

theorem allWhite_concatenate {imgs : List Grid} {L : Grid}
    (h : ∀ g ∈ imgs, AllWhite g)
    (hl : concatenateCharacterImages imgs = some L) : AllWhite L := by
  rw [concatenateCharacterImages] at hl
  by_cases hne : imgs.isEmpty
  · rw [if_pos hne] at hl
    cases hl
  · rw [if_neg hne] at hl
    obtain rfl := Option.some_injective _ hl
    refine allWhite_pasteLoop _ _ _ (allWhite_replicate _ _) ?_
    intro g hg
    obtain ⟨g0, hg0, rfl⟩ := List.mem_map.mp hg
    exact allWhite_padCenter _ (h g0 hg0)

theorem allWhite_crop {g : Grid} (rnd : RandDraws) (h : AllWhite g) :
    AllWhite (crop_whitespace rnd g) := by
  rw [crop_whitespace]
  intro r hr
  obtain ⟨r0, hr0, rfl⟩ := List.mem_map.mp hr
  have hr0g : r0 ∈ g := List.mem_of_mem_drop (List.mem_of_mem_take hr0)
  intro v hv
  exact h r0 hr0g v (List.mem_of_mem_drop (List.mem_of_mem_take hv))

/-- Claim C9 (amended): for every text that is not all-whitespace,
contains at least one whitespace character, and whose non-whitespace
characters all lack glyphs, `compose_line_image` does not return
`(none, "")`: it returns a non-none image with Label exactly the
whitespace characters; and when background blending and augmentation are
disabled the image is entirely white (built only from the synthesized
20×32 blank buffers).  (With a non-white background blended in — or
augmentation enabled — the pixels need not be white, so the unconditional
"entirely white" of the original claim fails.) -/
theorem compose_ws_only (ops : FloatOps) (rnd : RandDraws) (st : ComposerState)
    (text : List Char) (style? : Option Str) (ab aa : Bool)
    (h1 : text.all (fun c => c.isWhitespace) = false)
    (h2 : text.any (fun c => c.isWhitespace) = true)
    (h3 : ∀ c ∈ text, c.isWhitespace = false → hasGlyph st.loader c = false) :
    (compose_line_image ops rnd st text style? ab aa).1 ≠ none
    ∧ (compose_line_image ops rnd st text style? ab aa).2.1 =
        text.filter (fun c => c.isWhitespace)
    ∧ (∀ g, (compose_line_image ops rnd st text style? false false).1 = some g →
        AllWhite g) := by
  have hbuf := composeChars_allspace st.loader style? rnd text 0 h3
  have hfil : text.filter (fun c => c.isWhitespace) ≠ [] := by
    rw [List.any_eq_true] at h2
    obtain ⟨c, hc, hcw⟩ := h2
    intro hnil
    exact absurd hcw (by simpa using (List.filter_eq_nil_iff.mp hnil) c hc)
  have hbne : (composeChars st.loader style? rnd text 0).1 ≠ [] := by
    rw [hbuf]
    simpa using hfil
  have hsome := concat_isSome _ hbne
  rw [Option.isSome_iff_exists] at hsome
  obtain ⟨line0, hline⟩ := hsome
  have hlab : (composeChars st.loader style? rnd text 0).2 =
      text.filter (fun c => c.isWhitespace) := by
    rw [composeChars_label st.loader style? rnd text 0]
    refine List.filter_congr ?_
    intro c hc
    cases hcw : c.isWhitespace with
    | true => simp
    | false => simp [h3 c hc hcw]
  refine ⟨?_, ?_, ?_⟩
  · rw [compose_main ops rnd st text style? ab aa h1 line0 hline]
    simp
  · rw [compose_main ops rnd st text style? ab aa h1 line0 hline]
    exact hlab
  · intro g hg
    rw [compose_main ops rnd st text style? false false h1 line0 hline] at hg
    simp only [Bool.false_eq_true, false_and, if_false, Option.some.injEq] at hg
    subst hg
    refine allWhite_crop rnd (allWhite_concatenate ?_ hline)
    intro b hb
    rw [hbuf] at hb
    obtain ⟨c, hc, rfl⟩ := List.mem_map.mp hb
    exact allWhite_space_image

theorem compose_ws_only_witness :
    (compose_line_image trivialOps zeroRnd emptyState ['a', ' ']
        none false false).1 ≠ none
    ∧ (compose_line_image trivialOps zeroRnd emptyState ['a', ' ']
        none false false).2.1 = List.filter (fun c => c.isWhitespace) ['a', ' ']
    ∧ (∀ g, (compose_line_image trivialOps zeroRnd emptyState ['a', ' ']
        none false false).1 = some g → AllWhite g) :=
  compose_ws_only trivialOps zeroRnd emptyState ['a', ' '] none false false
    (by decide) (by decide) (by decide)

/-- Claim C9 counterexample: with no glyphs, one all-black 40×40
background, text `"a "` and background blending enabled, the call
returns a non-none image that is entirely black, not entirely white —
the original claim's unconditional "entirely white image" is false. -/
theorem compose_ws_black_cex :
    (compose_line_image trivialOps zeroRnd
        ⟨emptyLoader, [List.replicate 40 (List.replicate 40 0)]⟩
        ['a', ' '] none true false).1 ≠ none
    ∧ ¬ AllWhite ((compose_line_image trivialOps zeroRnd
        ⟨emptyLoader, [List.replicate 40 (List.replicate 40 0)]⟩
        ['a', ' '] none true false).1.getD []) :=
  ⟨by decide, by decide⟩

theorem headD_getD {α : Type} (l : List α) (d : α) : l.headD d = l.getD 0 d := by
  cases l <;> rfl

theorem getD_zipWith {α β γ : Type} (f : α → β → γ) :
    ∀ (a : List α) (b : List β) (i : Nat) (da : α) (db : β) (dc : γ),
    i < a.length → i < b.length →
    (List.zipWith f a b).getD i dc = f (a.getD i da) (b.getD i db) := by
  intro a
  induction a with
  | nil => intro b i da db dc ha hb; simp at ha
  | cons x t ih =>
    intro b i da db dc ha hb
    cases b with
    | nil => simp at hb
    | cons y u =>
      cases i with
      | zero => rfl
      | succ i =>
        simp only [List.zipWith_cons_cons, List.getD_cons_succ]
        exact ih u i da db dc (by simpa using ha) (by simpa using hb)

theorem getD_map_nil {α β : Type} (f : List α → List β)
    (hf : f [] = []) : ∀ (l : List (List α)) (i : Nat),
    (l.map f).getD i [] = f (l.getD i []) := by
  intro l
  induction l with
  | nil => intro i; simp [hf]
  | cons x t ih =>
    intro i
    cases i with
    | zero => rfl
    | succ i => simpa using ih i

theorem getD_take {α : Type} :
    ∀ (l : List α) (n i : Nat) (d : α), i < n →
      (l.take n).getD i d = l.getD i d := by
  intro l
  induction l with
  | nil => intro n i d h; simp
  | cons x t ih =>
    intro n i d h
    cases n with
    | zero => exact absurd h (by simp)
    | succ n =>
      cases i with
      | zero => rfl
      | succ i =>
        simp only [List.take_succ_cons, List.getD_cons_succ]
        exact ih n i d (by omega)

theorem getD_drop {α : Type} :
    ∀ (l : List α) (n i : Nat) (d : α), (l.drop n).getD i d = l.getD (n + i) d := by
  intro l
  induction l with
  | nil => intro n i d; simp
  | cons x t ih =>
    intro n i d
    cases n with
    | zero => simp
    | succ n =>
      simp only [List.drop_succ_cons]
      rw [ih n i d]
      have : n + 1 + i = (n + i) + 1 := by omega
      rw [this, List.getD_cons_succ]

theorem rect_getD_length {g : Grid} (hg : Rect g) {y : Nat} (hy : y < g.length) :
    (g.getD y []).length = gridW g :=
  hg _ (getD_mem g y [] hy)

/-- Claim C4: background blending resizes the background only when it is
smaller than the line image in either dimension, then uses the
background's top-left region of the line image's size as the base and
overwrites each pixel whose line-image value is below threshold 180 with
the line-image value; the output has exactly the line image's dimensions
regardless of the relative background size.  (The resize hypotheses state
that the external LANCZOS resize returns an image of the requested size.) -/
theorem blend_spec (ops : FloatOps) (fg bg : Grid)
    (hfg : Rect fg) (hbg : Rect bg)
    (hR1 : gridH (ops.resizeBg bg (gridW fg) (gridH fg)) = gridH fg)
    (hR2 : gridW (ops.resizeBg bg (gridW fg) (gridH fg)) = gridW fg)
    (hR3 : Rect (ops.resizeBg bg (gridW fg) (gridH fg))) :
    gridH (blend_with_background ops fg bg 180) = gridH fg
    ∧ gridW (blend_with_background ops fg bg 180) = gridW fg
    ∧ Rect (blend_with_background ops fg bg 180)
    ∧ (∀ y, y < gridH fg → ∀ x, x < gridW fg →
        px (blend_with_background ops fg bg 180) y x =
          (if px fg y x < 180 then px fg y x
           else px (if gridW bg < gridW fg ∨ gridH bg < gridH fg
              then ops.resizeBg bg (gridW fg) (gridH fg) else bg) y x)) := by
  set fw := gridW fg with hfw
  set fh := gridH fg with hfh
  set bg2 := if gridW bg < fw ∨ gridH bg < fh
      then ops.resizeBg bg fw fh else bg with hbg2
  have hbg2H : fh ≤ gridH bg2 := by
    rw [hbg2]
    by_cases hc : gridW bg < fw ∨ gridH bg < fh
    · rw [if_pos hc, hR1]
    · rw [if_neg hc]
      push_neg at hc
      exact hc.2
  have hbg2R : Rect bg2 := by
    rw [hbg2]
    by_cases hc : gridW bg < fw ∨ gridH bg < fh
    · rw [if_pos hc]; exact hR3
    · rw [if_neg hc]; exact hbg
  have hbg2W : fw ≤ gridW bg2 := by
    rw [hbg2]
    by_cases hc : gridW bg < fw ∨ gridH bg < fh
    · rw [if_pos hc, hR2]
    · rw [if_neg hc]
      push_neg at hc
      exact hc.1
  have hblend : blend_with_background ops fg bg 180 =
      List.zipWith (fun brow frow =>
        List.zipWith (fun b f => if f < 180 then f else b) brow frow)
        ((bg2.take fh).map (fun row => row.take fw)) fg := by
    rw [blend_with_background, ← hbg2, ← hfw, ← hfh]
  have hbaselen : ((bg2.take fh).map (fun row => row.take fw)).length = fh := by
    rw [List.length_map, List.length_take]
    exact Nat.min_eq_left hbg2H
  have hlen : (blend_with_background ops fg bg 180).length = fh := by
    rw [hblend, List.length_zipWith, hbaselen, hfh]
    exact Nat.min_self _
  have hrow : ∀ y, y < fh →
      (blend_with_background ops fg bg 180).getD y [] =
        List.zipWith (fun b f => if f < 180 then f else b)
          ((bg2.getD y []).take fw) (fg.getD y []) := by
    intro y hy
    rw [hblend, getD_zipWith _ _ _ y [] [] [] (by rw [hbaselen]; exact hy) hy,
      getD_map_nil _ (by simp), getD_take bg2 fh y [] hy]
  have hrowlen : ∀ y, y < fh →
      ((blend_with_background ops fg bg 180).getD y []).length = fw := by
    intro y hy
    rw [hrow y hy, List.length_zipWith, List.length_take,
      rect_getD_length hbg2R (by exact Nat.lt_of_lt_of_le hy hbg2H),
      rect_getD_length hfg hy]
    rw [Nat.min_eq_left hbg2W, Nat.min_self]
  refine ⟨hlen, ?_, ?_, ?_⟩
  · by_cases hfh0 : fh = 0
    · have hfgnil : fg = [] := List.length_eq_zero.mp hfh0
      have hfw0 : fw = 0 := by rw [hfw, hfgnil]; rfl
      have hb : blend_with_background ops fg bg 180 = [] :=
        List.length_eq_zero.mp (by rw [hlen, hfh0])
      rw [hb, hfw0]
      rfl
    · rw [gridW, headD_getD]
      exact hrowlen 0 (Nat.pos_of_ne_zero hfh0)
  · intro r hr
    obtain ⟨y, hy, rfl⟩ := List.mem_iff_getElem.mp hr
    have hy' : y < fh := by rw [← hlen]; exact hy
    rw [← List.getD_eq_getElem _ [] hy, hrowlen y hy']
    rw [gridW, headD_getD, hrowlen 0 (by omega)]

  · intro y hy x hx
    rw [px, hrow y hy, getD_zipWith _ _ _ x 0 0 0
      (by rw [List.length_take,
        rect_getD_length hbg2R (by exact Nat.lt_of_lt_of_le hy hbg2H),
        Nat.min_eq_left hbg2W]; exact hx)
      (by rw [rect_getD_length hfg hy]; exact hx)]
    rw [getD_take _ fw x 0 hx]
    rfl

theorem blend_spec_witness :
    gridH (blend_with_background trivialOps [[0]] [[200]] 180) = gridH [[0]]
    ∧ gridW (blend_with_background trivialOps [[0]] [[200]] 180) = gridW [[0]]
    ∧ Rect (blend_with_background trivialOps [[0]] [[200]] 180)
    ∧ (∀ y, y < gridH [[0]] → ∀ x, x < gridW [[0]] →
        px (blend_with_background trivialOps [[0]] [[200]] 180) y x =
          (if px [[0]] y x < 180 then px [[0]] y x
           else px (if gridW [[200]] < gridW [[0]] ∨ gridH [[200]] < gridH [[0]]
              then trivialOps.resizeBg [[200]] (gridW [[0]]) (gridH [[0]])
              else [[200]]) y x)) :=
  blend_spec trivialOps [[0]] [[200]] (by decide) (by decide) (by decide)
    (by decide) (by decide)

theorem getD_append_lt {α : Type} :
    ∀ (l l' : List α) (n : Nat) (d : α), n < l.length →
      (l ++ l').getD n d = l.getD n d := by
  intro l
  induction l with
  | nil => intro l' n d h; simp at h
  | cons x t ih =>
    intro l' n d h
    cases n with
    | zero => rfl
    | succ n =>
      simp only [List.cons_append, List.getD_cons_succ]
      exact ih l' n d (by simpa using h)

theorem getD_append_len {α : Type} :
    ∀ (l l' : List α) (n : Nat) (d : α),
      (l ++ l').getD (l.length + n) d = l'.getD n d := by
  intro l
  induction l with
  | nil => intro l' n d; simp
  | cons x t ih =>
    intro l' n d
    have : (x :: t).length + n = (t.length + n) + 1 := by simp; omega
    rw [this, List.cons_append, List.getD_cons_succ]
    exact ih l' n d

theorem getD_replicate_lt {α : Type} (a d : α) :
    ∀ (n i : Nat), i < n → (List.replicate n a).getD i d = a := by
  intro n
  induction n with
  | zero => intro i h; omega
  | succ n ih =>
    intro i h
    cases i with
    | zero => rfl
    | succ i =>
      rw [List.replicate_succ, List.getD_cons_succ]
      exact ih i (by omega)

theorem getD_map_lt {α β : Type} (f : α → β) :
    ∀ (l : List α) (i : Nat) (d : α) (d' : β), i < l.length →
      (l.map f).getD i d' = f (l.getD i d) := by
  intro l
  induction l with
  | nil => intro i d d' h; simp at h
  | cons x t ih =>
    intro i d d' h
    cases i with
    | zero => rfl
    | succ i =>
      simp only [List.map_cons, List.getD_cons_succ]
      exact ih i d d' (by simpa using h)

theorem foldl_add_init {α : Type} (f : α → Nat) :
    ∀ (l : List α) (a : Nat),
      l.foldl (fun s x => s + f x) a = a + l.foldl (fun s x => s + f x) 0 := by
  intro l
  induction l with
  | nil => intro a; simp
  | cons x t ih =>
    intro a
    simp only [List.foldl_cons]
    rw [ih (a + f x), ih (0 + f x)]
    omega

theorem sumWidths_cons (g : Grid) (gs : List Grid) :
    sumWidths (g :: gs) = gridW g + sumWidths gs := by
  rw [sumWidths, sumWidths, List.foldl_cons]
  rw [foldl_add_init gridW gs (0 + gridW g)]
  omega

theorem sumWidths_map_congr (f : Grid → Grid) :
    ∀ (l : List Grid), (∀ g ∈ l, gridW (f g) = gridW g) →
      sumWidths (l.map f) = sumWidths l := by
  intro l
  induction l with
  | nil => intro _; rfl
  | cons g gs ih =>
    intro h
    rw [List.map_cons, sumWidths_cons, sumWidths_cons,
      h g (List.mem_cons_self g gs), ih (fun g' hg' => h g' (List.mem_cons_of_mem _ hg'))]

theorem foldl_max_le (gs : List Grid) : ∀ (a : Nat),
    a ≤ gs.foldl (fun m g => max m (gridH g)) a := by
  induction gs with
  | nil => intro a; exact Nat.le_refl a
  | cons g gs ih =>
    intro a
    exact Nat.le_trans (Nat.le_max_left a (gridH g)) (ih _)

theorem maxHeight_le_of_mem : ∀ (gs : List Grid) (a : Nat) (g : Grid), g ∈ gs →
    gridH g ≤ gs.foldl (fun m g => max m (gridH g)) a := by
  intro gs
  induction gs with
  | nil => intro a g h; simp at h
  | cons g' gs ih =>
    intro a g h
    rcases List.mem_cons.mp h with rfl | h
    · exact Nat.le_trans (Nat.le_max_right a (gridH g)) (foldl_max_le gs _)
    · exact ih _ g h

theorem gridH_le_maxHeight {gs : List Grid} {g : Grid} (h : g ∈ gs) :
    gridH g ≤ maxHeight gs :=
  maxHeight_le_of_mem gs 0 g h

theorem padCenter_length {g : Grid} {m : Nat} (h : gridH g ≤ m) :
    (padCenter m g).length = m := by
  have h' : g.length ≤ m := h
  rw [padCenter]
  by_cases hlt : g.length < m
  · rw [if_pos hlt]
    simp only [List.length_append, List.length_replicate]
    omega
  · rw [if_neg hlt]
    omega

theorem getD_append_ge {α : Type} (A B : List α) (n : Nat) (d : α)
    (h : A.length ≤ n) : (A ++ B).getD n d = B.getD (n - A.length) d := by
  have h2 := getD_append_len A B (n - A.length) d
  rw [show A.length + (n - A.length) = n from by omega] at h2
  exact h2

theorem padCenter_width (g : Grid) (m : Nat) : gridW (padCenter m g) = gridW g := by
  by_cases hlt : g.length < m
  · have hpc : padCenter m g =
        List.replicate ((m - g.length) / 2) (List.replicate (gridW g) 255) ++ g ++
          List.replicate (m - g.length - (m - g.length) / 2)
            (List.replicate (gridW g) 255) := by
      rw [padCenter, if_pos hlt]
    rw [hpc]
    cases hpt : (m - g.length) / 2 with
    | zero =>
      simp only [List.replicate_zero, List.nil_append]
      cases g with
      | nil =>
        simp only [List.nil_append]
        cases hpb : m - List.length ([] : Grid) - 0 with
        | zero => rfl
        | succ pb => rw [List.replicate_succ]; rfl
      | cons r t => rfl
    | succ pt =>
      rw [List.replicate_succ, List.cons_append, List.cons_append]
      exact List.length_replicate _ _
  · rw [padCenter, if_neg hlt]

theorem padCenter_rect {g : Grid} (m : Nat) (h : Rect g) : Rect (padCenter m g) := by
  intro r hr
  rw [padCenter_width]
  rw [padCenter] at hr
  by_cases hlt : g.length < m
  · rw [if_pos hlt] at hr
    rcases List.mem_append.mp hr with hr | hr
    · rcases List.mem_append.mp hr with hr | hr
      · rw [List.eq_of_mem_replicate hr]
        exact List.length_replicate _ _
      · exact h r hr
    · rw [List.eq_of_mem_replicate hr]
      exact List.length_replicate _ _
  · rw [if_neg hlt] at hr
    exact h r hr

theorem padCenter_px {g : Grid} {m y x : Nat} (hle : gridH g ≤ m) (hy : y < m)
    (hx : x < gridW g) :
    px (padCenter m g) y x =
      if (m - gridH g) / 2 ≤ y ∧ y < (m - gridH g) / 2 + gridH g
      then px g (y - (m - gridH g) / 2) x else 255 := by
  have hle' : g.length ≤ m := hle
  by_cases hlt : g.length < m
  · have hpc : padCenter m g =
        List.replicate ((m - g.length) / 2) (List.replicate (gridW g) 255) ++ g ++
          List.replicate (m - g.length - (m - g.length) / 2)
            (List.replicate (gridW g) 255) := by
      rw [padCenter, if_pos hlt]
    have hptle : (m - g.length) / 2 ≤ m - g.length := Nat.div_le_self _ _
    rw [px, hpc]
    by_cases h1 : y < (m - g.length) / 2
    · rw [getD_append_lt _ _ _ _
        (by simp only [List.length_append, List.length_replicate]; omega)]
      rw [getD_append_lt _ _ _ _ (by simp only [List.length_replicate]; omega)]
      rw [getD_replicate_lt _ _ _ _ h1]
      rw [getD_replicate_lt _ _ _ _ hx]
      rw [if_neg (by simp only [gridH]; omega)]
    · by_cases h2 : y < (m - g.length) / 2 + g.length
      · rw [getD_append_lt _ _ _ _
          (by simp only [List.length_append, List.length_replicate]; omega)]
        rw [getD_append_ge _ _ _ _ (by simp only [List.length_replicate]; omega)]
        rw [if_pos (by simp only [gridH]; omega)]
        simp only [List.length_replicate]
        rfl
      · rw [getD_append_ge _ _ _ _
          (by simp only [List.length_append, List.length_replicate]; omega)]
        rw [getD_replicate_lt _ _ _ _
          (by simp only [List.length_append, List.length_replicate]; omega)]
        rw [getD_replicate_lt _ _ _ _ hx]
        rw [if_neg (by simp only [gridH]; omega)]
  · have hpc : padCenter m g = g := by rw [padCenter, if_neg hlt]
    rw [hpc]
    rw [if_pos (by simp only [gridH]; omega)]
    have hz : (m - gridH g) / 2 = 0 := by
      simp only [gridH]
      omega
    rw [hz, Nat.sub_zero]

theorem zipWith_congr_mem {α β γ : Type} (f g : α → β → γ) :
    ∀ (l : List α) (l' : List β), (∀ a ∈ l, ∀ b ∈ l', f a b = g a b) →
      List.zipWith f l l' = List.zipWith g l l' := by
  intro l
  induction l with
  | nil => intro l' _; simp
  | cons a t ih =>
    intro l' h
    cases l' with
    | nil => simp
    | cons b u =>
      simp only [List.zipWith_cons_cons]
      rw [h a (List.mem_cons_self a t) b (List.mem_cons_self b u),
        ih u (fun a' ha' b' hb' =>
          h a' (List.mem_cons_of_mem _ ha') b' (List.mem_cons_of_mem _ hb'))]

theorem pasteRow_spec (p gr : List Nat) (S : Nat) :
    pasteRow (p ++ List.replicate (gr.length + S) 255) p.length gr
      = (p ++ gr) ++ List.replicate S 255 := by
  rw [pasteRow, List.take_left]
  have hdrop : (p ++ List.replicate (gr.length + S) 255).drop (p.length + gr.length)
      = List.replicate S 255 := by
    rw [← List.drop_drop, List.drop_left, List.drop_replicate]
    congr 1
    omega
  rw [hdrop, List.append_assoc]

theorem pasteLoop_eq : ∀ (gs : List Grid) (pre : Grid) (k : Nat),
    (∀ r ∈ pre, r.length = k) → (∀ g ∈ gs, gridH g = pre.length) →
    (∀ g ∈ gs, Rect g) →
    pasteLoop (pre.map (fun r => r ++ List.replicate (sumWidths gs) 255)) k gs
      = gs.foldl hcat2 pre := by
  intro gs
  induction gs with
  | nil =>
    intro pre k _ _ _
    show pre.map (fun r => r ++ List.replicate (sumWidths []) 255) = pre
    simp [sumWidths]
  | cons g gs ih =>
    intro pre k hk hH hR
    have hw : sumWidths (g :: gs) = gridW g + sumWidths gs := sumWidths_cons g gs
    show pasteLoop (pasteGrid
        (pre.map fun r => r ++ List.replicate (sumWidths (g :: gs)) 255) k g)
        (k + gridW g) gs = gs.foldl hcat2 (hcat2 pre g)
    have hstep : pasteGrid
        (pre.map fun r => r ++ List.replicate (sumWidths (g :: gs)) 255) k g
        = (hcat2 pre g).map (fun r => r ++ List.replicate (sumWidths gs) 255) := by
      rw [pasteGrid, hcat2, List.zipWith_map_left, List.map_zipWith]
      apply zipWith_congr_mem
      intro p hp gr hgr
      have hp' : p.length = k := hk p hp
      have hgr' : gr.length = gridW g := hR g (List.mem_cons_self g gs) gr hgr
      rw [hw, ← hgr', ← hp']
      exact pasteRow_spec p gr (sumWidths gs)
    rw [hstep]
    have hg := hH g (List.mem_cons_self g gs)
    have hlen : (hcat2 pre g).length = pre.length := by
      rw [hcat2, List.length_zipWith]
      simp only [gridH] at hg
      omega
    apply ih
    · intro r hr
      obtain ⟨p, hp, q, hq, rfl⟩ := mem_zipWith_decomp hr
      rw [List.length_append, hk p hp, hR g (List.mem_cons_self g gs) q hq]
    · intro g' hg'
      rw [hH g' (List.mem_cons_of_mem _ hg'), hlen]
    · intro g' hg'
      exact hR g' (List.mem_cons_of_mem _ hg')

theorem hcat2_foldl_length : ∀ (gs : List Grid) (pre : Grid),
    (∀ g ∈ gs, gridH g = pre.length) → (gs.foldl hcat2 pre).length = pre.length := by
  intro gs
  induction gs with
  | nil => intro pre _; rfl
  | cons g gs ih =>
    intro pre hH
    have hg := hH g (List.mem_cons_self g gs)
    have hlen : (hcat2 pre g).length = pre.length := by
      rw [hcat2, List.length_zipWith]
      simp only [gridH] at hg
      omega
    have hH' : ∀ g' ∈ gs, gridH g' = (hcat2 pre g).length := by
      intro g' hg'
      rw [hlen]
      exact hH g' (List.mem_cons_of_mem _ hg')
    show (gs.foldl hcat2 (hcat2 pre g)).length = pre.length
    rw [ih (hcat2 pre g) hH', hlen]

theorem hcat2_foldl_getD : ∀ (gs : List Grid) (pre : Grid) (y : Nat),
    (∀ g ∈ gs, gridH g = pre.length) → y < pre.length →
    (gs.foldl hcat2 pre).getD y [] =
      (gs.map (fun g => g.getD y [])).foldl (· ++ ·) (pre.getD y []) := by
  intro gs
  induction gs with
  | nil => intro pre y _ _; rfl
  | cons g gs ih =>
    intro pre y hH hy
    have hg := hH g (List.mem_cons_self g gs)
    have hlen : (hcat2 pre g).length = pre.length := by
      rw [hcat2, List.length_zipWith]
      simp only [gridH] at hg
      omega
    have hH' : ∀ g' ∈ gs, gridH g' = (hcat2 pre g).length := by
      intro g' hg'
      rw [hlen]
      exact hH g' (List.mem_cons_of_mem _ hg')
    show (gs.foldl hcat2 (hcat2 pre g)).getD y [] = _
    rw [ih (hcat2 pre g) y hH' (by rw [hlen]; exact hy)]
    simp only [List.map_cons, List.foldl_cons]
    congr 1
    rw [hcat2]
    exact getD_zipWith _ pre g y [] [] [] hy
      (by simp only [gridH] at hg; omega)

theorem foldl_append_init {α : Type} :
    ∀ (rs : List (List α)) (acc : List α),
      rs.foldl (· ++ ·) acc = acc ++ rs.foldl (· ++ ·) [] := by
  intro rs
  induction rs with
  | nil => intro acc; simp
  | cons r rs ih =>
    intro acc
    simp only [List.foldl_cons]
    rw [ih (acc ++ r), ih ([] ++ r)]
    simp [List.append_assoc]

theorem foldl_append_length {α : Type} :
    ∀ (rs : List (List α)) (acc : List α),
      (rs.foldl (· ++ ·) acc).length = acc.length + (rs.map List.length).sum := by
  intro rs
  induction rs with
  | nil => intro acc; simp
  | cons r rs ih =>
    intro acc
    simp only [List.foldl_cons, List.map_cons, List.sum_cons]
    rw [ih (acc ++ r)]
    simp only [List.length_append]
    omega

theorem rows_foldl_getD :
    ∀ (rs : List (List Nat)) (acc : List Nat) (i x : Nat),
      i < rs.length → x < (rs.getD i []).length →
      (rs.foldl (· ++ ·) acc).getD
          (acc.length + ((rs.take i).map List.length).sum + x) 0
        = (rs.getD i []).getD x 0 := by
  intro rs
  induction rs with
  | nil => intro acc i x hi _; simp at hi
  | cons r rs ih =>
    intro acc i x hi hx
    cases i with
    | zero =>
      simp only [List.take_zero, List.map_nil, List.sum_nil, Nat.add_zero,
        List.foldl_cons, List.getD_cons_zero]
      rw [foldl_append_init rs (acc ++ r), List.append_assoc, getD_append_len]
      rw [getD_append_lt _ _ _ _ (by simpa using hx)]
    | succ i =>
      simp only [List.foldl_cons, List.take_succ_cons, List.map_cons,
        List.sum_cons, List.getD_cons_succ]
      have hidx : acc.length + (r.length + ((rs.take i).map List.length).sum) + x
          = (acc ++ r).length + ((rs.take i).map List.length).sum + x := by
        rw [List.length_append]
        omega
      rw [hidx, ih (acc ++ r) i x (by simpa using hi) (by simpa using hx)]

theorem rows_length_sum :
    ∀ (l : List Grid) (y : Nat),
      (∀ g ∈ l, (g.getD y []).length = gridW g) →
      ((l.map (fun g => g.getD y [])).map List.length).sum = sumWidths l := by
  intro l
  induction l with
  | nil => intro y _; rfl
  | cons g gs ih =>
    intro y h
    simp only [List.map_cons, List.sum_cons]
    rw [h g (List.mem_cons_self g gs),
      ih y (fun g' hg' => h g' (List.mem_cons_of_mem _ hg')), sumWidths_cons]

theorem sumWidths_eq_zero :
    ∀ (l : List Grid), (∀ g ∈ l, gridW g = 0) → sumWidths l = 0 := by
  intro l
  induction l with
  | nil => intro _; rfl
  | cons g gs ih =>
    intro h
    rw [sumWidths_cons, h g (List.mem_cons_self g gs),
      ih (fun g' hg' => h g' (List.mem_cons_of_mem _ hg'))]

/-- Claim C1: for every non-empty sequence of (rectangular) glyph buffers,
the assembled line buffer has height equal to the maximum buffer height
and width equal to the sum of the buffer widths; each buffer shorter than
the maximum is vertically centered with top padding `(maxH - h) / 2` and
bottom padding `maxH - h - padTop` filled with white (255), and the
buffers appear left to right in sequence order: the pixel at row `y` and
column `offset_i + x` is the padded pixel of buffer `i`. -/
theorem concatenate_spec (imgs : List Grid) (hne : imgs ≠ [])
    (hrect : ∀ g ∈ imgs, Rect g) :
    ∃ L, concatenateCharacterImages imgs = some L ∧
      gridH L = maxHeight imgs ∧
      gridW L = sumWidths imgs ∧
      Rect L ∧
      (∀ i, i < imgs.length → ∀ y, y < maxHeight imgs →
        ∀ x, x < gridW (imgs.getD i []) →
        px L y (sumWidths (imgs.take i) + x) =
          (if (maxHeight imgs - gridH (imgs.getD i [])) / 2 ≤ y ∧
              y < (maxHeight imgs - gridH (imgs.getD i [])) / 2
                  + gridH (imgs.getD i [])
           then px (imgs.getD i [])
              (y - (maxHeight imgs - gridH (imgs.getD i [])) / 2) x
           else 255)) := by
  set H := maxHeight imgs with hHdef
  set padded := imgs.map (padCenter H) with hpadded
  set L := pasteLoop (List.replicate H (List.replicate (sumWidths padded) 255))
    0 padded with hL
  have hcc : concatenateCharacterImages imgs = some L := by
    rw [concatenateCharacterImages, if_neg (by simpa using hne)]
  have hpadH : ∀ g ∈ padded, gridH g = H := by
    intro g hg
    rw [hpadded] at hg
    obtain ⟨g0, hg0, rfl⟩ := List.mem_map.mp hg
    exact padCenter_length (gridH_le_maxHeight hg0)
  have hpadR : ∀ g ∈ padded, Rect g := by
    intro g hg
    rw [hpadded] at hg
    obtain ⟨g0, hg0, rfl⟩ := List.mem_map.mp hg
    exact padCenter_rect H (hrect g0 hg0)
  have hpadW : sumWidths padded = sumWidths imgs := by
    rw [hpadded]
    exact sumWidths_map_congr _ imgs (fun g _ => padCenter_width g H)
  have hpadHlen : ∀ g ∈ padded, gridH g = (List.replicate H ([] : List Nat)).length := by
    intro g hg
    rw [List.length_replicate]
    exact hpadH g hg
  have hLfold : L = padded.foldl hcat2 (List.replicate H []) := by
    rw [hL]
    have hinit : List.replicate H (List.replicate (sumWidths padded) 255)
        = (List.replicate H ([] : List Nat)).map
            (fun r => r ++ List.replicate (sumWidths padded) 255) := by
      rw [List.map_replicate]
      simp
    rw [hinit]
    exact pasteLoop_eq padded (List.replicate H []) 0
      (by intro r hr; rw [List.eq_of_mem_replicate hr]; rfl)
      hpadHlen hpadR
  have hLlen : L.length = H := by
    rw [hLfold, hcat2_foldl_length padded _ hpadHlen, List.length_replicate]
  have hrowreduce : ∀ y, y < H → L.getD y [] =
      (padded.map (fun g => g.getD y [])).foldl (· ++ ·) [] := by
    intro y hy
    rw [hLfold, hcat2_foldl_getD padded _ y hpadHlen
      (by rw [List.length_replicate]; exact hy)]
    congr 1
    exact getD_replicate_lt _ _ _ _ hy
  have hrowsG : ∀ y, y < H → ∀ g ∈ padded, (g.getD y []).length = gridW g := by
    intro y hy g hg
    refine rect_getD_length (hpadR g hg) ?_
    have := hpadH g hg
    simp only [gridH] at this
    omega
  have hrowlen : ∀ y, y < H → (L.getD y []).length = sumWidths imgs := by
    intro y hy
    rw [hrowreduce y hy, foldl_append_length]
    simp only [List.length_nil, Nat.zero_add]
    rw [rows_length_sum padded y (hrowsG y hy), hpadW]
  have hgw : gridW L = sumWidths imgs := by
    by_cases hH0 : H = 0
    · have hL0 : L = [] := List.length_eq_zero.mp (by rw [hLlen, hH0])
      have himgsw : ∀ g ∈ imgs, gridW g = 0 := by
        intro g hg
        have h1 : gridH g ≤ H := gridH_le_maxHeight hg
        have h2 : g.length = 0 := by simp only [gridH] at h1; omega
        rw [List.length_eq_zero.mp h2]
        rfl
      rw [hL0, sumWidths_eq_zero imgs himgsw]
      rfl
    · rw [gridW, headD_getD, hrowlen 0 (Nat.pos_of_ne_zero hH0)]
  have hLrect : Rect L := by
    intro r hr
    obtain ⟨y, hy, rfl⟩ := List.mem_iff_getElem.mp hr
    rw [← List.getD_eq_getElem _ [] hy, hrowlen y (by rw [← hLlen]; exact hy), hgw]
  refine ⟨L, hcc, hLlen, hgw, hLrect, ?_⟩
  intro i hi y hy x hx
  have himem : imgs.getD i [] ∈ imgs := getD_mem imgs i [] hi
  have hile : gridH (imgs.getD i []) ≤ H := gridH_le_maxHeight himem
  have hp02 : (padded.map (fun g => g.getD y [])).getD i []
      = (padCenter H (imgs.getD i [])).getD y [] := by
    rw [getD_map_lt _ padded i [] [] (by rw [hpadded, List.length_map]; exact hi)]
    congr 1
    rw [hpadded]
    exact getD_map_lt (padCenter H) imgs i [] [] hi
  have hoffset : (((padded.map (fun g => g.getD y [])).take i).map List.length).sum
      = sumWidths (imgs.take i) := by
    rw [← List.map_take]
    rw [rows_length_sum (padded.take i) y
      (fun g hg => hrowsG y hy g (List.mem_of_mem_take hg))]
    rw [hpadded, ← List.map_take]
    exact sumWidths_map_congr _ (imgs.take i) (fun g _ => padCenter_width g H)
  have hx' : x < ((padded.map (fun g => g.getD y [])).getD i []).length := by
    rw [hp02, rect_getD_length (padCenter_rect H (hrect _ himem))
      (by rw [padCenter_length hile]; exact hy), padCenter_width]
    exact hx
  have hmain := rows_foldl_getD (padded.map (fun g => g.getD y [])) [] i x
    (by rw [List.length_map, hpadded, List.length_map]; exact hi) hx'
  simp only [List.length_nil, Nat.zero_add] at hmain
  rw [hoffset, hp02] at hmain
  rw [px, hrowreduce y hy, hmain]
  exact padCenter_px hile hy hx

theorem concatenate_spec_witness :
    ∃ L, concatenateCharacterImages [[[0]], [[1], [2], [3]]] = some L ∧
      gridH L = maxHeight [[[0]], [[1], [2], [3]]] ∧
      gridW L = sumWidths [[[0]], [[1], [2], [3]]] ∧
      Rect L ∧
      (∀ i, i < ([[[0]], [[1], [2], [3]]] : List Grid).length →
        ∀ y, y < maxHeight [[[0]], [[1], [2], [3]]] →
        ∀ x, x < gridW (([[[0]], [[1], [2], [3]]] : List Grid).getD i []) →
        px L y (sumWidths (([[[0]], [[1], [2], [3]]] : List Grid).take i) + x) =
          (if (maxHeight [[[0]], [[1], [2], [3]]]
                - gridH (([[[0]], [[1], [2], [3]]] : List Grid).getD i [])) / 2 ≤ y ∧
              y < (maxHeight [[[0]], [[1], [2], [3]]]
                - gridH (([[[0]], [[1], [2], [3]]] : List Grid).getD i [])) / 2
                  + gridH (([[[0]], [[1], [2], [3]]] : List Grid).getD i [])
           then px (([[[0]], [[1], [2], [3]]] : List Grid).getD i [])
              (y - (maxHeight [[[0]], [[1], [2], [3]]]
                - gridH (([[[0]], [[1], [2], [3]]] : List Grid).getD i [])) / 2) x
           else 255)) :=
  concatenate_spec [[[0]], [[1], [2], [3]]] (by decide) (by decide)

theorem compose_none_iff_witness :
    compose_line_image trivialOps zeroRnd emptyState [] none true true
      = (none, [], emptyState)
    ∧ compose_line_image trivialOps zeroRnd emptyState [' ', ' ', ' '] none true true
      = (none, [], emptyState) :=
  compose_none_iff.2 trivialOps zeroRnd emptyState none true true

theorem loadCharDict_skip_and_conform_witness :
    loadCharDict ["abc".toList, "a : 1".toList] [] [] =
      loadCharDict (List.filter hasSep ["abc".toList, "a : 1".toList]) [] []
    ∧ ((loadCharDict ["a : 1".toList] [] []).isSome = true ↔
        ∀ l ∈ ["a : 1".toList], hasSep l = true → conformLine l = true) :=
  ⟨loadCharDict_skip_and_conform.1 ["abc".toList, "a : 1".toList] [] [],
   loadCharDict_skip_and_conform.2 ["a : 1".toList] [] []⟩
